import Mathlib

/-!
Healthcare appointment app: the medicine-name extraction of the prescription scanner and
the booking wizard.

Shallow embedding of `extractMedicineNames` from `src/prescription-scanner.js`
(lines 141-173) together with the fragment of JavaScript regular-expression
matching that its three patterns and its cleanup pattern use, and of the step
navigation, the validation and `formatTime` from `src/script.js`, as far as they
read and write `bookingState`.

Strings are lists of Unicode characters.  The JavaScript regular expressions of
the source have no `u` flag and work on UTF-16 code units; every character that
the patterns can consume (ASCII letters, digits, JavaScript white space) is a
single code unit, and a character outside the Basic Multilingual Plane is two
code units neither of which is a word character, a white-space character or a
letter, so it is matched by nothing, exactly like the one `Char` that stands for
it here.  `.length` is modelled by `jsLength`, which counts UTF-16 code units.
-/

namespace PrescriptionScanner

/-! ## Characters -/

/-- The class `[A-Z]`. -/
def isUpper (c : Char) : Bool := decide (65 ≤ c.toNat) && decide (c.toNat ≤ 90)

/-- The class `[a-z]`. -/
def isLower (c : Char) : Bool := decide (97 ≤ c.toNat) && decide (c.toNat ≤ 122)

/-- The class `\d`, that is `[0-9]`. -/
def isDigit (c : Char) : Bool := decide (48 ≤ c.toNat) && decide (c.toNat ≤ 57)

/-- Word characters of `\b`: `[A-Za-z0-9_]` (no `u` flag, so the `i` flag does not extend it). -/
def isWordChar (c : Char) : Bool := isUpper c || isLower c || isDigit c || c.toNat == 95

/-- The class `\s`, which is also what `String.prototype.trim` removes: the ECMAScript
WhiteSpace and LineTerminator code points. -/
def isSpace (c : Char) : Bool :=
  let n := c.toNat
  (decide (9 ≤ n) && decide (n ≤ 13)) || n == 32 || n == 160 || n == 0x1680 ||
  (decide (0x2000 ≤ n) && decide (n ≤ 0x200A)) || n == 0x2028 || n == 0x2029 ||
  n == 0x202F || n == 0x205F || n == 0x3000 || n == 0xFEFF

/-- Upper-case mapping of one character, on ASCII letters.  It is applied in two places:
as the `Canonicalize` step of case-insensitive matching against the ASCII letters of the
patterns (without the `u` flag a character of code 128 or more never canonicalizes to an
ASCII one), and as `toUpperCase` on cleaned matches, which consist of ASCII letters, digits
and white space only. -/
def upperChar (c : Char) : Char := if isLower c then Char.ofNat (c.toNat - 32) else c

/-- The method `toUpperCase` on a cleaned match. -/
def toUpperCase (s : List Char) : List Char := s.map upperChar

/-- Number of UTF-16 code units of a character. -/
def utf16Units (c : Char) : Nat := if c.toNat < 0x10000 then 1 else 2

/-- The property `.length` of a JavaScript string: its number of UTF-16 code units. -/
def jsLength (s : List Char) : Nat := (s.map utf16Units).sum

/-! ## Regular expressions -/

/-- Character classes used by the patterns. -/
inductive CharSet where
  | upper
  | lower
  | space
  | digit

/-- Membership of a character in a class; with the `i` flag the letter classes match both cases. -/
def CharSet.mem (ci : Bool) : CharSet → Char → Bool
  | .upper, c => isUpper c || (ci && isLower c)
  | .lower, c => isLower c || (ci && isUpper c)
  | .space, c => isSpace c
  | .digit, c => isDigit c

/-- The fragment of regular expressions that the source uses.  Groups are not recorded:
`match` with the `g` flag and `replace` with a constant replacement use whole matches only. -/
inductive Re where
  | fail
  | str (cs : List Char)
  | set (s : CharSet)
  | wordB
  | bol
  | seq (a b : Re)
  | alt (a b : Re)
  | opt (a : Re)
  | rep (min : Nat) (s : CharSet)

/-- Ordered alternation of literal words, `(?:w1|w2|...)`. -/
def Re.words : List String → Re
  | [] => .fail
  | [w] => .str w.data
  | w :: ws => .alt (.str w.data) (Re.words ws)

/-- A position in the subject string: the character before it (none at the start) and
the characters from it on. -/
structure Pos where
  prev : Option Char
  rest : List Char
deriving DecidableEq, Repr

/-- Match a literal at a position. -/
def matchStr (ci : Bool) : List Char → Pos → Option Pos
  | [], p => some p
  | _ :: _, ⟨_, []⟩ => none
  | x :: xs, ⟨_, c :: cs⟩ =>
    if (if ci then upperChar x == upperChar c else x == c) then matchStr ci xs ⟨some c, cs⟩
    else none

/-- Greedy repetition `[set]{min,}`: the positions where it can stop, longest first. -/
def repEnds (f : Char → Bool) : Nat → Option Char → List Char → List Pos
  | min, prev, [] => if min = 0 then [⟨prev, []⟩] else []
  | min, prev, c :: cs =>
    (if f c then repEnds f (min - 1) (some c) cs else []) ++
      (if min = 0 then [⟨prev, c :: cs⟩] else [])

/-- The assertion `\b`. -/
def atWordBoundary (p : Pos) : Bool :=
  (match p.prev with | some c => isWordChar c | none => false) !=
    (match p.rest with | c :: _ => isWordChar c | [] => false)

/-- All positions at which a match of the expression begun at `p` can end, in the order in
which the backtracking matcher of ECMAScript finds them (greedy quantifiers, alternatives
left to right).  The match that the matcher reports is the first one. -/
def ends (ci : Bool) : Re → Pos → List Pos
  | .fail, _ => []
  | .str cs, p => (matchStr ci cs p).toList
  | .set s, p =>
    match p.rest with
    | [] => []
    | c :: cs => if s.mem ci c then [⟨some c, cs⟩] else []
  | .wordB, p => if atWordBoundary p then [p] else []
  | .bol, p => if p.prev.isNone then [p] else []
  | .seq a b, p => (ends ci a p).flatMap (ends ci b)
  | .alt a b, p => ends ci a p ++ ends ci b p
  | .opt a, p => ends ci a p ++ [p]
  | .rep min s, p => repEnds (s.mem ci) min p.prev p.rest

/-- A regular expression with its flags (`g` is a property of the call site). -/
structure Pattern where
  re : Re
  ignoreCase : Bool

/-- The match starting exactly at `p`, if any: where it ends. -/
def execAt (pat : Pattern) (p : Pos) : Option Pos := (ends pat.ignoreCase pat.re p).head?

/-- All matches of a global pattern from a position on, as `String.prototype.match` collects
them: leftmost match first, then search again from the end of that match (one character
further after an empty match).  `skip` counts the characters still covered by the last
match. -/
def matchAllFrom (pat : Pattern) : Nat → Option Char → List Char → List (List Char)
  | 0, prev, [] =>
    match execAt pat ⟨prev, []⟩ with
    | some _ => [[]]
    | none => []
  | _ + 1, _, [] => []
  | 0, prev, c :: cs =>
    match execAt pat ⟨prev, c :: cs⟩ with
    | some e =>
      let n := (c :: cs).length - e.rest.length
      (c :: cs).take n :: matchAllFrom pat (n - 1) (some c) cs
    | none => matchAllFrom pat 0 (some c) cs
  | skip + 1, _, c :: cs => matchAllFrom pat skip (some c) cs

/-- The call `line.match(pattern)` for a pattern with the `g` flag: the array of all matches,
or null when there is none. -/
def jsMatch (line : List Char) (pat : Pattern) : Option (List (List Char)) :=
  match matchAllFrom pat 0 none line with
  | [] => none
  | ms => some ms

/-- The call `s.replace(pattern, '')` for a pattern without the `g` flag: the leftmost match
is removed (a match at the very end of the string is empty, and removing it changes nothing). -/
def replaceFirstFrom (pat : Pattern) : Option Char → List Char → List Char
  | _, [] => []
  | prev, c :: cs =>
    match execAt pat ⟨prev, c :: cs⟩ with
    | some e => e.rest
    | none => c :: replaceFirstFrom pat (some c) cs

/-- The method `trim`. -/
def trim (s : List Char) : List Char :=
  ((s.dropWhile isSpace).reverse.dropWhile isSpace).reverse

/-- The call `text.split('\n')`. -/
def splitLines : List Char → List (List Char)
  | [] => [[]]
  | c :: cs =>
    if c = '\n' then [] :: splitLines cs
    else
      match splitLines cs with
      | [] => [[c]]
      | l :: ls => (c :: l) :: ls

/-! ## The patterns of `extractMedicineNames` -/

/-- The suffixes of the first pattern. -/
def suffixes : List String :=
  ["zole", "cillin", "mycin", "floxacin", "pril", "olol", "azole", "pine", "stat", "tin",
    "fen", "dine"]

/-- The dosage forms of the second pattern and of the cleanup pattern. -/
def dosageForms : List String := ["Tab", "Tablet", "Cap", "Capsule", "Syrup", "Inj", "Injection"]

/-- Pattern `/\b[A-Z][a-z]+(?:zole|cillin|...|dine)\b/g`. -/
def suffixPattern : Pattern :=
  ⟨.seq .wordB (.seq (.set .upper) (.seq (.rep 1 .lower) (.seq (Re.words suffixes) .wordB))),
    false⟩

/-- The group `([A-Z][a-z]+(?:\s+[A-Z][a-z]+)?)` of the second pattern. -/
def capitalizedWords : Re :=
  .seq (.set .upper) (.seq (.rep 1 .lower)
    (.opt (.seq (.rep 1 .space) (.seq (.set .upper) (.rep 1 .lower)))))

/-- Pattern `/\b(?:Tab|Tablet|Cap|Capsule|Syrup|Inj|Injection)\s+([A-Z][a-z]+(?:\s+[A-Z][a-z]+)?)/gi`. -/
def dosagePattern : Pattern :=
  ⟨.seq .wordB (.seq (Re.words dosageForms) (.seq (.rep 1 .space) capitalizedWords)), true⟩

/-- Pattern `/\b[A-Z]{2,}(?:\s+[A-Z]+)?(?:\s+\d+(?:mg|mcg|ml|g))?/g`. -/
def allCapsPattern : Pattern :=
  ⟨.seq .wordB (.seq (.rep 2 .upper) (.seq (.opt (.seq (.rep 1 .space) (.rep 1 .upper)))
      (.opt (.seq (.rep 1 .space) (.seq (.rep 1 .digit) (Re.words ["mg", "mcg", "ml", "g"])))))),
    false⟩

/-- The array `medicinePatterns`. -/
def medicinePatterns : List Pattern := [suffixPattern, dosagePattern, allCapsPattern]

/-- Pattern `/^(Tab|Tablet|Cap|Capsule|Syrup|Inj|Injection)\s+/i` of the cleanup. -/
def cleanupPattern : Pattern :=
  ⟨.seq .bol (.seq (Re.words dosageForms) (.rep 1 .space)), true⟩

/-- The array `excludeWords`. -/
def excludeWords : List (List Char) :=
  ["PATIENT", "NAME", "AGE", "DATE", "DOCTOR", "SIGNATURE", "ADDRESS", "PHONE"].map String.data

/-! ## `extractMedicineNames` -/

/-- The cleanup of a match: `match.replace(/^(Tab|...)\s+/i, '').trim()`. -/
def cleanup (m : List Char) : List Char := trim (replaceFirstFrom cleanupPattern none m)

/-- The filter of line 162. -/
def accepted (medicine : List Char) : Bool :=
  !excludeWords.contains (toUpperCase medicine) &&
    decide (jsLength medicine > 2) && decide (jsLength medicine < 30)

/-- Body of `matches.forEach`: clean the match up and push it when it passes the filter
and is not yet in `medicines`. -/
def pushMatch (medicines : List (List Char)) (m : List Char) : List (List Char) :=
  let medicine := cleanup m
  if accepted medicine then
    if !medicines.contains medicine then medicines ++ [medicine] else medicines
  else medicines

/-- Body of `medicinePatterns.forEach` for one line. -/
def applyPattern (line : List Char) (medicines : List (List Char)) (pat : Pattern) :
    List (List Char) :=
  match jsMatch line pat with
  | some ms => ms.foldl pushMatch medicines
  | none => medicines

/-- Body of `lines.forEach`. -/
def processLine (medicines : List (List Char)) (line : List Char) : List (List Char) :=
  medicinePatterns.foldl (applyPattern line) medicines

/-- The array `medicines` when the loops are over, before `slice`. -/
def collect (text : List Char) : List (List Char) :=
  (splitLines text).foldl processLine []

/-- The function `extractMedicineNames`. -/
def extractMedicineNames (text : String) : List String :=
  ((collect text.data).take 20).map String.mk

/-! ## Specification-side definitions -/

/-- Removal of later duplicates: every element is kept at its first occurrence only. -/
def dedupFirst : List (List Char) → List (List Char)
  | [] => []
  | x :: xs => x :: (dedupFirst xs).filter (fun y => !(y == x))

/-- The cleaned matches of one pattern on one line that pass the filter, in match order. -/
def lineCandidates (line : List Char) (pat : Pattern) : List (List Char) :=
  ((matchAllFrom pat 0 none line).map cleanup).filter accepted

/-- All cleaned, filtered matches of a text: line order, then rule order, then match order. -/
def allCandidates (text : List Char) : List (List Char) :=
  (splitLines text).flatMap (fun line => medicinePatterns.flatMap (lineCandidates line))

/-- The untruncated candidate list of the specification: all cleaned, filtered matches with
later duplicates removed. -/
def candidateList (text : List Char) : List (List Char) := dedupFirst (allCandidates text)

/-- The character that precedes the position reached by reading `cs` from a position
preceded by `prev`. -/
def lastChar : Option Char → List Char → Option Char
  | prev, [] => prev
  | _, c :: cs => lastChar (some c) cs

/-- The characters that a match can consist of: ASCII letters, digits and white space. -/
def plainChar (c : Char) : Bool := isUpper c || isLower c || isDigit c || isSpace c

/-- An expression all of whose literals are made of ASCII letters. -/
def Re.plain : Re → Bool
  | .str cs => cs.all (fun c => isUpper c || isLower c)
  | .seq a b => a.plain && b.plain
  | .alt a b => a.plain && b.plain
  | .opt a => a.plain
  | _ => true

/-- Push a candidate unless it is already present. -/
def pushNew (ms : List (List Char)) (x : List Char) : List (List Char) :=
  if ms.contains x then ms else ms ++ [x]

/-- A text of 25 lines, each holding one valid candidate, all distinct. -/
def text25 : String :=
  "Amoxicillin\nOmeprazole\nAzithromycin\nCiprofloxacin\nLisinopril\nAtenolol\n" ++
  "Fluconazole\nAmlodipine\nAtorvastatin\nGabapentin\nIbuprofen\nRanitidine\n" ++
  "Pantoprazole\nAmpicillin\nErythromycin\nLevofloxacin\nEnalapril\nMetoprolol\n" ++
  "Ketoconazole\nNifedipine\nSimvastatin\nNystatin\nKetoprofen\nCimetidine\nRamipril"

/-- Equality of two strings ignoring case. -/
def equalsIgnoreCase (a b : List Char) : Prop := toUpperCase a = toUpperCase b

/-- An ASCII letter of either case. -/
def isLetter (c : Char) : Bool := isUpper c || isLower c

/-- A capitalized word: an upper-case letter followed by one or more lower-case letters. -/
def CapitalizedWord (w : List Char) : Prop :=
  ∃ u ls, w = u :: ls ∧ isUpper u = true ∧ ls ≠ [] ∧ ∀ c ∈ ls, isLower c = true

/-- A word of two or more ASCII letters of either case. -/
def LetterWord (w : List Char) : Prop := 2 ≤ w.length ∧ ∀ c ∈ w, isLetter c = true

/-- A string that consists of one word of a kind, or of two such words separated by white
space. -/
def OneOrTwoWords (P : List Char → Prop) (s : List Char) : Prop :=
  ∃ w1, P w1 ∧
    (s = w1 ∨ ∃ sp w2, sp ≠ [] ∧ (∀ c ∈ sp, isSpace c = true) ∧ P w2 ∧ s = w1 ++ sp ++ w2)

end PrescriptionScanner

/-! ## The booking wizard of `src/script.js` -/

namespace BookingWizard

open PrescriptionScanner

/-- The object `bookingState`, without its constant tables `prices` and `doctors`, which are
never written.  A selection is null (`none`) or a string; `currentStep` is a number. -/
structure BookingState where
  service : Option String
  date : Option String
  time : Option String
  doctor : Option String
  consultationType : String
  prescription : Option String
  currentStep : Int
deriving DecidableEq, Repr

/-- The initial value of `bookingState`. -/
def bookingState : BookingState :=
  { service := none, date := none, time := none, doctor := none, consultationType := "clinic",
    prescription := none, currentStep := 1 }

/-- Truthiness of a selection: null and the empty string are falsy. -/
def truthy (v : Option String) : Bool :=
  match v with
  | some s => !s.data.isEmpty
  | none => false

/-- What `validatePatientForm` reads from the document: the values of the inputs `full-name`,
`email` and `phone` and the state of the check box `terms`. -/
structure PatientForm where
  fullName : String
  email : String
  phone : String
  terms : Bool
deriving DecidableEq, Repr

/-- The class `[^\s@]`. -/
def emailChar (c : Char) : Bool := !isSpace c && !(c == '@')

/-- The function `isValidEmail`: the test of `/^[^\s@]+@[^\s@]+\.[^\s@]+$/`. -/
def isValidEmail (email : List Char) : Bool :=
  (repEnds emailChar 1 none email).any fun p1 =>
    match p1.rest with
    | '@' :: r1 =>
      (repEnds emailChar 1 (some '@') r1).any fun p2 =>
        match p2.rest with
        | '.' :: r2 => (repEnds emailChar 1 (some '.') r2).any fun p3 => p3.rest.isEmpty
        | _ => false
    | _ => false

/-- The class `[\d\s\-\+\(\)]`. -/
def phoneChar (c : Char) : Bool :=
  isDigit c || isSpace c || c == '-' || c == '+' || c == '(' || c == ')'

/-- The function `isValidPhone`: the test of `/^[\d\s\-\+\(\)]{10,}$/` on the phone number
with all white space removed. -/
def isValidPhone (phone : List Char) : Bool :=
  (repEnds phoneChar 10 none (phone.filter fun c => !isSpace c)).any fun p => p.rest.isEmpty

/-- The function `validatePatientForm`, as far as its result goes (the error messages it
displays are left out). -/
def validatePatientForm (form : PatientForm) : Bool :=
  let fullName := trim form.fullName.data
  let email := trim form.email.data
  let phone := trim form.phone.data
  let isValid := true
  let isValid :=
    if fullName.isEmpty then false else if jsLength fullName < 2 then false else isValid
  let isValid :=
    if email.isEmpty then false else if !isValidEmail email then false else isValid
  let isValid :=
    if phone.isEmpty then false else if !isValidPhone phone then false else isValid
  let isValid := if !form.terms then false else isValid
  isValid

/-- The function `validateCurrentStep`, as far as its result goes. -/
def validateCurrentStep (form : PatientForm) (s : BookingState) : Bool :=
  if s.currentStep = 1 then truthy s.service
  else if s.currentStep = 2 then truthy s.date && truthy s.time
  else if s.currentStep = 3 then truthy s.doctor
  else if s.currentStep = 4 then validatePatientForm form
  else true

/-- The function `goToNextStep`, as far as `bookingState` goes. -/
def goToNextStep (form : PatientForm) (s : BookingState) : BookingState :=
  if validateCurrentStep form s then { s with currentStep := s.currentStep + 1 } else s

/-- The function `goToPreviousStep`, as far as `bookingState` goes. -/
def goToPreviousStep (s : BookingState) : BookingState :=
  if s.currentStep > 1 then { s with currentStep := s.currentStep - 1 } else s

/-- The function `resetBooking`, as far as `bookingState` goes. -/
def resetBooking (_s : BookingState) : BookingState :=
  { service := none, date := none, time := none, doctor := none, consultationType := "clinic",
    prescription := none, currentStep := 1 }

/-- The function `handleServiceChange`. -/
def handleServiceChange (value : String) (s : BookingState) : BookingState :=
  { s with service := some value }

/-- The function `handleDateInput`. -/
def handleDateInput (value : String) (s : BookingState) : BookingState :=
  { s with date := some value }

/-- The function `handleTimeSlot`; the attribute `data-time` may be missing. -/
def handleTimeSlot (value : Option String) (s : BookingState) : BookingState :=
  { s with time := value }

/-- The function `handleDoctorChange`. -/
def handleDoctorChange (value : String) (s : BookingState) : BookingState :=
  { s with doctor := some value }

/-- The events of the wizard that write `bookingState`; a call of `goToNextStep` comes with
the contents of the patient form at that moment. -/
inductive Action where
  | selectService (value : String)
  | inputDate (value : String)
  | selectTime (value : Option String)
  | selectDoctor (value : String)
  | next (form : PatientForm)
  | previous
  | reset

/-- One event. -/
def step (s : BookingState) : Action → BookingState
  | .selectService v => handleServiceChange v s
  | .inputDate v => handleDateInput v s
  | .selectTime v => handleTimeSlot v s
  | .selectDoctor v => handleDoctorChange v s
  | .next form => goToNextStep form s
  | .previous => goToPreviousStep s
  | .reset => resetBooking s

/-- A sequence of events from a state on. -/
def run (trace : List Action) (s : BookingState) : BookingState := trace.foldl step s

/-- A patient form that passes `validatePatientForm`. -/
def validForm : PatientForm :=
  { fullName := "Ada Lovelace", email := "ada@example.org", phone := "+44 20 7946 0958",
    terms := true }

/-- A booking carried through its four steps, and `goToNextStep` once more on the last. -/
def overrunTrace : List Action :=
  [.selectService "dental", .next validForm, .inputDate "2026-11-05",
    .selectTime (some "09:00"), .next validForm, .selectDoctor "dr-smith", .next validForm,
    .next validForm]

/-- The call `s.split(sep)` for a separator of one character. -/
def splitOn (sep : Char) : List Char → List (List Char)
  | [] => [[]]
  | c :: cs =>
    if c = sep then [] :: splitOn sep cs
    else
      match splitOn sep cs with
      | [] => [[c]]
      | l :: ls => (c :: l) :: ls

/-- The value of a digit in a radix, if it is one. -/
def digitValue (radix : Nat) (c : Char) : Option Nat :=
  let v :=
    if isDigit c then some (c.toNat - 48)
    else if isLower c then some (c.toNat - 97 + 10)
    else if isUpper c then some (c.toNat - 65 + 10)
    else none
  match v with
  | some d => if d < radix then some d else none
  | none => none

/-- The digits at the start of a string. -/
def leadingDigits (radix : Nat) : List Char → List Nat
  | [] => []
  | c :: cs =>
    match digitValue radix c with
    | some d => d :: leadingDigits radix cs
    | none => []

/-- The function `parseInt` with one argument; `none` stands for NaN.  Leading white space is
skipped, a sign and the prefix `0x` are read, then the longest run of digits.  The result is
exact here; JavaScript rounds it to a double beyond 2^53. -/
def parseInt (s : List Char) : Option Int :=
  let s := s.dropWhile isSpace
  let signed : Int × List Char :=
    match s with
    | '-' :: t => (-1, t)
    | '+' :: t => (1, t)
    | _ => (1, s)
  let based : Nat × List Char :=
    match signed.2 with
    | '0' :: 'x' :: t => (16, t)
    | '0' :: 'X' :: t => (16, t)
    | t => (10, t)
  let ds := leadingDigits based.1 based.2
  if ds.isEmpty then none
  else some (signed.1 * ((ds.foldl (fun acc d => acc * based.1 + d) 0 : Nat) : Int))

/-- The text of an integer in a template literal. -/
def numberToString (n : Int) : List Char := (toString n).data

/-- The function `formatTime`. -/
def formatTime (timeString : String) : String :=
  let parts := splitOn ':' timeString.data
  let hours := parts.headD []
  let minutes :=
    match parts with
    | _ :: m :: _ => m
    | _ => "undefined".data
  let hour := parseInt hours
  let ampm :=
    match hour with
    | some h => if h ≥ 12 then "PM" else "AM"
    | none => "AM"
  let displayHour : Int :=
    match hour with
    | some h => if h.tmod 12 = 0 then 12 else h.tmod 12
    | none => 12
  String.mk (numberToString displayHour ++ ':' :: minutes ++ ' ' :: ampm.data)

/-- The two digits of an hour. -/
def twoDigits (n : Nat) : List Char := [Char.ofNat (48 + n / 10), Char.ofNat (48 + n % 10)]

end BookingWizard

namespace PrescriptionScanner

/-! ## The loops as folds -/

theorem applyPattern_eq (line : List Char) (ms : List (List Char)) (pat : Pattern) :
    applyPattern line ms pat = (matchAllFrom pat 0 none line).foldl pushMatch ms := by
  unfold applyPattern jsMatch
  cases h : matchAllFrom pat 0 none line <;> simp

/-- An invariant of `medicines` that every push keeps holds when the loops are over. -/
theorem collect_invariant (P : List (List Char) → Prop) (h0 : P [])
    (hstep : ∀ ms m, P ms → P (pushMatch ms m)) (text : List Char) : P (collect text) := by
  have hfold : ∀ (xs : List (List Char)) (ms : List (List Char)), P ms →
      P (xs.foldl pushMatch ms) := by
    intro xs
    induction xs with
    | nil => intro ms h; exact h
    | cons x xs ih => intro ms h; exact ih _ (hstep ms x h)
  have hpat : ∀ (line : List Char) (ps : List Pattern) (ms : List (List Char)), P ms →
      P (ps.foldl (applyPattern line) ms) := by
    intro line ps
    induction ps with
    | nil => intro ms h; exact h
    | cons q ps ih =>
      intro ms h
      refine ih _ ?_
      rw [applyPattern_eq]
      exact hfold _ _ h
  have hline : ∀ (ls : List (List Char)) (ms : List (List Char)), P ms →
      P (ls.foldl processLine ms) := by
    intro ls
    induction ls with
    | nil => intro ms h; exact h
    | cons l ls ih => intro ms h; exact ih _ (hpat l _ ms h)
  exact hline _ _ h0

theorem pushMatch_cases (ms : List (List Char)) (m : List Char) :
    pushMatch ms m = ms ∨
      (pushMatch ms m = ms ++ [cleanup m] ∧ accepted (cleanup m) = true ∧ cleanup m ∉ ms) := by
  unfold pushMatch
  by_cases ha : accepted (cleanup m) = true
  · by_cases hc : cleanup m ∈ ms
    · left; simp [ha, hc]
    · right
      exact ⟨by simp [ha, hc], ha, hc⟩
  · left; simp [ha]

theorem collect_nodup (text : List Char) : (collect text).Nodup := by
  refine collect_invariant (fun ms => ms.Nodup) List.nodup_nil ?_ text
  intro ms m h
  rcases pushMatch_cases ms m with h1 | ⟨h1, _, h3⟩
  · rw [h1]; exact h
  · rw [h1]
    exact List.Nodup.append h (List.nodup_singleton _) (by simpa using h3)

theorem collect_accepted (text : List Char) : ∀ m ∈ collect text, accepted m = true := by
  refine collect_invariant (fun ms => ∀ m ∈ ms, accepted m = true) (by simp) ?_ text
  intro ms m h
  rcases pushMatch_cases ms m with h1 | ⟨h1, h2, _⟩
  · rw [h1]; exact h
  · rw [h1]
    intro x hx
    rcases List.mem_append.mp hx with hx | hx
    · exact h x hx
    · rw [List.mem_singleton.mp hx]; exact h2

theorem mem_extract (text : String) (m : String) (h : m ∈ extractMedicineNames text) :
    m.data ∈ collect text.data := by
  unfold extractMedicineNames at h
  obtain ⟨x, hx, rfl⟩ := List.mem_map.mp h
  exact List.mem_of_mem_take hx

/-! ## C1: at most 20 results -/

/-- C1: for every input text, the list returned by `extractMedicineNames` has at most 20
elements. -/
theorem extractMedicineNames_length_le (text : String) :
    (extractMedicineNames text).length ≤ 20 := by
  unfold extractMedicineNames
  rw [List.length_map, List.length_take]
  exact Nat.min_le_left _ _

/-! ## C2: no duplicates -/

/-- C2: for every input text the result of `extractMedicineNames` contains no string twice
(every string occurs at most once), and a name that stands on two different lines is
returned once. -/
theorem extractMedicineNames_nodup (text : String) :
    (extractMedicineNames text).Nodup ∧ (∀ m, (extractMedicineNames text).count m ≤ 1) ∧
      extractMedicineNames "Amoxicillin 250mg\nAtorvastatin\nTab Amoxicillin" =
        ["Amoxicillin", "Atorvastatin"] := by
  have hnd : (extractMedicineNames text).Nodup := by
    unfold extractMedicineNames
    refine List.Nodup.map ?_ ((collect_nodup _).sublist (List.take_sublist _ _))
    intro a b hab
    exact congrArg String.data hab
  exact ⟨hnd, fun m => List.nodup_iff_count_le_one.mp hnd m, by decide⟩

/-! ## C5: the result is the first 20 entries of the untruncated candidate list -/

theorem pushMatch_eq (ms : List (List Char)) (m : List Char) :
    pushMatch ms m = if accepted (cleanup m) then pushNew ms (cleanup m) else ms := by
  unfold pushMatch pushNew
  by_cases ha : accepted (cleanup m) = true
  · by_cases hc : cleanup m ∈ ms <;> simp [ha, hc]
  · simp [ha]

theorem foldl_pushMatch (xs : List (List Char)) (ms : List (List Char)) :
    xs.foldl pushMatch ms = ((xs.map cleanup).filter accepted).foldl pushNew ms := by
  induction xs generalizing ms with
  | nil => rfl
  | cons x xs ih =>
    rw [List.foldl_cons, ih, pushMatch_eq]
    by_cases ha : accepted (cleanup x) = true
    · simp [List.filter_cons, ha]
    · simp [List.filter_cons, ha]

theorem applyPattern_candidates (line : List Char) (ms : List (List Char)) (pat : Pattern) :
    applyPattern line ms pat = (lineCandidates line pat).foldl pushNew ms := by
  rw [applyPattern_eq, foldl_pushMatch]
  rfl

theorem foldl_applyPattern (line : List Char) (ps : List Pattern) (ms : List (List Char)) :
    ps.foldl (applyPattern line) ms = (ps.flatMap (lineCandidates line)).foldl pushNew ms := by
  induction ps generalizing ms with
  | nil => rfl
  | cons q ps ih =>
    rw [List.foldl_cons, ih, applyPattern_candidates, List.flatMap_cons, List.foldl_append]

theorem foldl_processLine (ls : List (List Char)) (ms : List (List Char)) :
    ls.foldl processLine ms =
      (ls.flatMap (fun line => medicinePatterns.flatMap (lineCandidates line))).foldl
        pushNew ms := by
  induction ls generalizing ms with
  | nil => rfl
  | cons l ls ih =>
    rw [List.foldl_cons, ih, List.flatMap_cons, List.foldl_append]
    unfold processLine
    rw [foldl_applyPattern]

theorem collect_eq_foldl (text : List Char) :
    collect text = (allCandidates text).foldl pushNew [] := by
  unfold collect allCandidates
  exact foldl_processLine _ _

theorem foldl_pushNew (cs : List (List Char)) (ms : List (List Char)) :
    cs.foldl pushNew ms = ms ++ (dedupFirst cs).filter (fun y => !ms.contains y) := by
  induction cs generalizing ms with
  | nil => simp [dedupFirst]
  | cons x cs ih =>
    rw [List.foldl_cons, ih]
    by_cases hx : x ∈ ms
    · have hp : pushNew ms x = ms := by simp [pushNew, hx]
      rw [hp]
      congr 1
      simp only [dedupFirst, List.filter_cons, List.filter_filter]
      have hx2 : (!ms.contains x) = false := by simp [hx]
      rw [hx2]
      simp only [Bool.false_eq_true, if_false]
      apply List.filter_congr
      intro y _
      by_cases hy : y ∈ ms
      · simp [hy]
      · have : ¬ y = x := fun h => hy (h ▸ hx)
        simp [hy, this]
    · have hp : pushNew ms x = ms ++ [x] := by simp [pushNew, hx]
      rw [hp]
      simp only [dedupFirst, List.filter_cons, List.filter_filter]
      have hx2 : (!ms.contains x) = true := by simp [hx]
      rw [hx2]
      simp only [if_true, List.append_assoc, List.singleton_append]
      congr 2
      apply List.filter_congr
      intro y _
      by_cases hy : y ∈ ms <;> by_cases hyx : y = x <;> simp [hy, hyx]

theorem collect_eq_candidateList (text : List Char) : collect text = candidateList text := by
  rw [collect_eq_foldl, foldl_pushNew]
  simp [candidateList]

/-- C5: for every text the result of `extractMedicineNames` is the first 20 entries of the
untruncated candidate list (all cleaned, filtered matches in line, rule and match order,
later duplicates removed); when that list has 20 or more entries the result has exactly 20. -/
theorem extractMedicineNames_eq_take (text : String) :
    extractMedicineNames text = ((candidateList text.data).take 20).map String.mk ∧
      (20 ≤ (candidateList text.data).length → (extractMedicineNames text).length = 20) := by
  have h : extractMedicineNames text = ((candidateList text.data).take 20).map String.mk := by
    unfold extractMedicineNames
    rw [collect_eq_candidateList]
  refine ⟨h, fun hlen => ?_⟩
  rw [h, List.length_map, List.length_take]
  exact Nat.min_eq_left hlen

set_option maxRecDepth 1000000 in
/-- C5, on 25 distinct valid candidates: the untruncated list has 25 entries and the result
is its first 20, in order of appearance. -/
theorem extractMedicineNames_eq_take_witness :
    (candidateList text25.data).length = 25 ∧
      (extractMedicineNames text25).length = 20 ∧
      extractMedicineNames text25 =
        ["Amoxicillin", "Omeprazole", "Azithromycin", "Ciprofloxacin", "Lisinopril", "Atenolol",
          "Fluconazole", "Amlodipine", "Atorvastatin", "Gabapentin", "Ibuprofen", "Ranitidine",
          "Pantoprazole", "Ampicillin", "Erythromycin", "Levofloxacin", "Enalapril",
          "Metoprolol", "Ketoconazole", "Nifedipine"] :=
  ⟨by decide, (extractMedicineNames_eq_take text25).2 (by decide), by decide⟩

/-! ## C6 and C7: what the filter guarantees -/

/-- C6: every string in the result of `extractMedicineNames` has a length (in UTF-16 code
units, the `.length` of the source) strictly greater than 2 and strictly less than 30. -/
theorem extractMedicineNames_length_bounds (text : String) (m : String)
    (h : m ∈ extractMedicineNames text) :
    2 < jsLength m.data ∧ jsLength m.data < 30 := by
  have ha := collect_accepted text.data m.data (mem_extract text m h)
  unfold accepted at ha
  simp only [Bool.and_eq_true, decide_eq_true_eq] at ha
  exact ⟨ha.1.2, ha.2⟩

/-- C6 at the input "Azithromycin". -/
theorem extractMedicineNames_length_bounds_witness :
    "Azithromycin" ∈ extractMedicineNames "Azithromycin" ∧
      2 < jsLength "Azithromycin".data ∧ jsLength "Azithromycin".data < 30 :=
  ⟨by decide, extractMedicineNames_length_bounds "Azithromycin" "Azithromycin" (by decide)⟩

theorem toUpperCase_excludeWords : ∀ e ∈ excludeWords, toUpperCase e = e := by decide

/-- C7: no string in the result of `extractMedicineNames` is equal, ignoring case, to one of
the exclusion words. -/
theorem extractMedicineNames_not_excluded (text : String) (m : String)
    (h : m ∈ extractMedicineNames text) :
    ∀ e ∈ excludeWords, ¬ equalsIgnoreCase m.data e := by
  have ha := collect_accepted text.data m.data (mem_extract text m h)
  unfold accepted at ha
  simp only [Bool.and_eq_true, decide_eq_true_eq, Bool.not_eq_true_eq_eq_false] at ha
  intro e he heq
  unfold equalsIgnoreCase at heq
  rw [toUpperCase_excludeWords e he] at heq
  have hmem : toUpperCase m.data ∈ excludeWords := heq ▸ he
  have hc : excludeWords.contains (toUpperCase m.data) = true := by simpa using hmem
  rw [ha.1.1] at hc
  exact Bool.false_ne_true hc

/-- C7 at an input with two excluded candidates and one valid candidate. -/
theorem extractMedicineNames_not_excluded_witness :
    "Amoxicillin" ∈ extractMedicineNames "Tab Name\nTAB DATE\nAmoxicillin" ∧
      ∀ e ∈ excludeWords, ¬ equalsIgnoreCase "Amoxicillin".data e :=
  ⟨by decide, extractMedicineNames_not_excluded "Tab Name\nTAB DATE\nAmoxicillin" "Amoxicillin"
    (by decide)⟩

/-! ## C9: no match, no result -/

theorem jsMatch_eq_none (line : List Char) (pat : Pattern) (h : jsMatch line pat = none) :
    matchAllFrom pat 0 none line = [] := by
  unfold jsMatch at h
  cases hm : matchAllFrom pat 0 none line with
  | nil => rfl
  | cons x xs => rw [hm] at h; simp at h

/-- C9: on the empty string `extractMedicineNames` returns the empty list, and so it does on
every text on whose lines none of the three patterns matches. -/
theorem extractMedicineNames_no_match (text : String)
    (h : ∀ line ∈ splitLines text.data, ∀ pat ∈ medicinePatterns, jsMatch line pat = none) :
    extractMedicineNames "" = [] ∧ extractMedicineNames text = [] := by
  refine ⟨by decide, ?_⟩
  have hall : allCandidates text.data = [] := by
    unfold allCandidates
    rw [List.flatMap_eq_nil_iff]
    intro line hline
    rw [List.flatMap_eq_nil_iff]
    intro pat hpat
    unfold lineCandidates
    rw [jsMatch_eq_none line pat (h line hline pat hpat)]
    rfl
  unfold extractMedicineNames
  rw [collect_eq_foldl, hall]
  rfl

/-- C9 at a text of two lines without any match. -/
theorem extractMedicineNames_no_match_witness :
    (∀ line ∈ splitLines "take 2 daily\nafter food".data, ∀ pat ∈ medicinePatterns,
        jsMatch line pat = none) ∧
      extractMedicineNames "" = [] ∧ extractMedicineNames "take 2 daily\nafter food" = [] :=
  ⟨by decide, extractMedicineNames_no_match "take 2 daily\nafter food" (by decide)⟩

/-! ## C10: later lines only append -/

theorem splitLines_ne_nil (s : List Char) : splitLines s ≠ [] := by
  cases s with
  | nil => simp [splitLines]
  | cons c cs =>
    unfold splitLines
    by_cases hc : c = '\n'
    · simp [hc]
    · simp only [hc, if_false]
      cases splitLines cs <;> simp

theorem splitLines_append (a b : List Char) :
    splitLines (a ++ '\n' :: b) = splitLines a ++ splitLines b := by
  induction a with
  | nil => simp [splitLines]
  | cons c cs ih =>
    by_cases hc : c = '\n'
    · simp [splitLines, hc, ih]
    · have h1 : splitLines (c :: cs ++ '\n' :: b) =
          (match splitLines (cs ++ '\n' :: b) with
            | [] => [[c]]
            | l :: ls => (c :: l) :: ls) := by
        simp [splitLines, hc]
      have h2 : splitLines (c :: cs) =
          (match splitLines cs with
            | [] => [[c]]
            | l :: ls => (c :: l) :: ls) := by
        simp [splitLines, hc]
      rw [h1, h2, ih]
      cases hs : splitLines cs with
      | nil => exact absurd hs (splitLines_ne_nil cs)
      | cons l ls => rfl

theorem take_append_take (n : Nat) (l t : List (List Char)) :
    ∃ r, (l.take n) ++ r = (l ++ t).take n := by
  induction l generalizing n with
  | nil => exact ⟨t.take n, by simp⟩
  | cons x xs ih =>
    cases n with
    | zero => exact ⟨[], by simp⟩
    | succ k =>
      obtain ⟨r, hr⟩ := ih k
      exact ⟨r, by simp [List.take_succ_cons, hr]⟩

/-- C10: for all strings `a` and `b`, the result for `a` is an initial segment of the result
for `a`, a newline and `b`: later lines only append candidates. -/
theorem extractMedicineNames_append_line (a b : String) :
    extractMedicineNames a <+: extractMedicineNames (a ++ "\n" ++ b) := by
  have hdata : (a ++ "\n" ++ b).data = a.data ++ '\n' :: b.data := by
    simp [String.data]
  have hcol : collect (a ++ "\n" ++ b).data =
      collect a.data ++ ((dedupFirst ((splitLines b.data).flatMap
        (fun line => medicinePatterns.flatMap (lineCandidates line)))).filter
          (fun y => !(collect a.data).contains y)) := by
    rw [hdata]
    unfold collect
    rw [splitLines_append, List.foldl_append, foldl_processLine (splitLines b.data),
      foldl_pushNew]
  unfold extractMedicineNames
  rw [hcol]
  obtain ⟨r, hr⟩ := take_append_take 20 (collect a.data) ((dedupFirst
    ((splitLines b.data).flatMap
      (fun line => medicinePatterns.flatMap (lineCandidates line)))).filter
        (fun y => !(collect a.data).contains y))
  refine ⟨r.map String.mk, ?_⟩
  rw [← hr, List.map_append]

/-! ## Properties of the matcher -/

theorem lastChar_append (prev : Option Char) (a b : List Char) :
    lastChar prev (a ++ b) = lastChar (lastChar prev a) b := by
  induction a generalizing prev with
  | nil => rfl
  | cons c cs ih => exact ih (some c)

theorem matchStr_spec (ci : Bool) (xs : List Char) (p e : Pos) (h : matchStr ci xs p = some e) :
    ∃ cs, p.rest = cs ++ e.rest ∧ e.prev = lastChar p.prev cs := by
  induction xs generalizing p with
  | nil =>
    simp only [matchStr, Option.some.injEq] at h
    exact ⟨[], by simp [h, lastChar]⟩
  | cons x xs ih =>
    obtain ⟨prev, rest⟩ := p
    cases rest with
    | nil => simp [matchStr] at h
    | cons c cs =>
      simp only [matchStr] at h
      by_cases hcond : (if ci then upperChar x == upperChar c else x == c) = true
      · rw [if_pos hcond] at h
        obtain ⟨ds, h1, h2⟩ := ih _ h
        exact ⟨c :: ds, by simpa using h1, by simpa [lastChar] using h2⟩
      · rw [if_neg hcond] at h
        simp at h

theorem repEnds_spec (f : Char → Bool) (min : Nat) (prev : Option Char) (s : List Char) (e : Pos)
    (h : e ∈ repEnds f min prev s) :
    ∃ cs, s = cs ++ e.rest ∧ e.prev = lastChar prev cs := by
  induction s generalizing min prev with
  | nil =>
    simp only [repEnds] at h
    split at h
    · simp only [List.mem_singleton] at h
      exact ⟨[], by simp [h, lastChar]⟩
    · simp at h
  | cons c cs ih =>
    simp only [repEnds, List.mem_append] at h
    rcases h with h | h
    · split at h
      · obtain ⟨ds, h1, h2⟩ := ih _ _ h
        exact ⟨c :: ds, by simp [← h1], by simpa [lastChar] using h2⟩
      · simp at h
    · split at h
      · simp only [List.mem_singleton] at h
        exact ⟨[], by simp [h, lastChar]⟩
      · simp at h

/-- Every end of a match lies further on in the same string. -/
theorem ends_spec (ci : Bool) (r : Re) (p e : Pos) (h : e ∈ ends ci r p) :
    ∃ cs, p.rest = cs ++ e.rest ∧ e.prev = lastChar p.prev cs := by
  induction r generalizing p e with
  | fail => simp [ends] at h
  | str cs =>
    simp only [ends, Option.mem_toList, Option.mem_def] at h
    exact matchStr_spec ci cs p e h
  | set s =>
    obtain ⟨prev, rest⟩ := p
    cases rest with
    | nil => simp [ends] at h
    | cons c cs =>
      simp only [ends] at h
      split at h
      · simp only [List.mem_singleton] at h
        exact ⟨[c], by simp [h, lastChar]⟩
      · simp at h
  | wordB =>
    simp only [ends] at h
    split at h
    · simp only [List.mem_singleton] at h
      exact ⟨[], by simp [h, lastChar]⟩
    · simp at h
  | bol =>
    simp only [ends] at h
    split at h
    · simp only [List.mem_singleton] at h
      exact ⟨[], by simp [h, lastChar]⟩
    · simp at h
  | seq a b iha ihb =>
    simp only [ends, List.mem_flatMap] at h
    obtain ⟨m, hm, he⟩ := h
    obtain ⟨c1, h1, h2⟩ := iha _ _ hm
    obtain ⟨c2, h3, h4⟩ := ihb _ _ he
    exact ⟨c1 ++ c2, by rw [h1, h3, List.append_assoc], by rw [h4, h2, lastChar_append]⟩
  | alt a b iha ihb =>
    simp only [ends, List.mem_append] at h
    rcases h with h | h
    · exact iha _ _ h
    · exact ihb _ _ h
  | opt a iha =>
    simp only [ends, List.mem_append, List.mem_singleton] at h
    rcases h with h | h
    · exact iha _ _ h
    · exact ⟨[], by simp [h, lastChar]⟩
  | rep min s =>
    simp only [ends] at h
    exact repEnds_spec _ _ _ _ _ h

theorem matchAllFrom_skip (pat : Pattern) (prev : Option Char) (a b : List Char) :
    matchAllFrom pat a.length prev (a ++ b) = matchAllFrom pat 0 (lastChar prev a) b := by
  induction a generalizing prev with
  | nil => rfl
  | cons c cs ih =>
    simp only [List.length_cons, List.cons_append, matchAllFrom, lastChar]
    exact ih (some c)

/-- A pattern that matches at no position of a string has no match in it. -/
theorem matchAllFrom_none (pat : Pattern) (s : List Char) (prev : Option Char)
    (h : ∀ a b, a ++ b = s → execAt pat ⟨lastChar prev a, b⟩ = none) :
    matchAllFrom pat 0 prev s = [] := by
  induction s generalizing prev with
  | nil =>
    have h0 := h [] [] rfl
    simp only [lastChar] at h0
    simp [matchAllFrom, h0]
  | cons c cs ih =>
    have h0 := h [] (c :: cs) rfl
    simp only [lastChar] at h0
    simp only [matchAllFrom, h0]
    apply ih
    intro a b hab
    have := h (c :: a) b (by simp [hab])
    simpa [lastChar] using this

theorem replaceFirstFrom_none (pat : Pattern) (s : List Char) (prev : Option Char)
    (h : ∀ a b, a ++ b = s → execAt pat ⟨lastChar prev a, b⟩ = none) :
    replaceFirstFrom pat prev s = s := by
  induction s generalizing prev with
  | nil => rfl
  | cons c cs ih =>
    have h0 := h [] (c :: cs) rfl
    simp only [lastChar] at h0
    simp only [replaceFirstFrom, h0]
    congr 1
    apply ih
    intro a b hab
    have := h (c :: a) b (by simp [hab])
    simpa [lastChar] using this

theorem trim_of_no_space (s : List Char) (h : ∀ c ∈ s, isSpace c = false) : trim s = s := by
  unfold trim
  have h1 : s.dropWhile isSpace = s := by
    cases s with
    | nil => rfl
    | cons c cs => simp [List.dropWhile, h c (by simp)]
  rw [h1]
  have h2 : s.reverse.dropWhile isSpace = s.reverse := by
    cases hr : s.reverse with
    | nil => rfl
    | cons c cs =>
      have hc : c ∈ s := by
        have : c ∈ s.reverse := by rw [hr]; simp
        simpa using this
      simp [List.dropWhile, h c hc]
  rw [h2, List.reverse_reverse]

/-! ## Character classes -/

theorem isUpper_bounds (c : Char) (h : isUpper c = true) : 65 ≤ c.toNat ∧ c.toNat ≤ 90 := by
  simpa [isUpper] using h

theorem isLower_bounds (c : Char) (h : isLower c = true) : 97 ≤ c.toNat ∧ c.toNat ≤ 122 := by
  simpa [isLower] using h

theorem isUpper_wordChar (c : Char) (h : isUpper c = true) : isWordChar c = true := by
  simp [isWordChar, h]

theorem isLower_wordChar (c : Char) (h : isLower c = true) : isWordChar c = true := by
  simp [isWordChar, h]

theorem isSpace_of_lt (c : Char) (h1 : 33 ≤ c.toNat) (h2 : c.toNat ≤ 159) : isSpace c = false := by
  unfold isSpace
  simp only [Bool.or_eq_false_iff, Bool.and_eq_false_iff, decide_eq_false_iff_not, beq_eq_false_iff_ne]
  omega

theorem isUpper_not_space (c : Char) (h : isUpper c = true) : isSpace c = false := by
  have := isUpper_bounds c h
  exact isSpace_of_lt c (by omega) (by omega)

theorem isLower_not_space (c : Char) (h : isLower c = true) : isSpace c = false := by
  have := isLower_bounds c h
  exact isSpace_of_lt c (by omega) (by omega)

theorem isLower_not_upper (c : Char) (h : isLower c = true) : isUpper c = false := by
  have := isLower_bounds c h
  simp only [isUpper, Bool.and_eq_false_iff, decide_eq_false_iff_not]
  omega

theorem isUpper_not_lower (c : Char) (h : isUpper c = true) : isLower c = false := by
  have := isUpper_bounds c h
  simp only [isLower, Bool.and_eq_false_iff, decide_eq_false_iff_not]
  omega

theorem jsLength_of_wordChars (s : List Char) (h : ∀ c ∈ s, isUpper c = true ∨ isLower c = true) :
    jsLength s = s.length := by
  induction s with
  | nil => rfl
  | cons c cs ih =>
    have hc : utf16Units c = 1 := by
      unfold utf16Units
      rcases h c (by simp) with h1 | h1
      · have := isUpper_bounds c h1
        rw [if_pos (by omega)]
      · have := isLower_bounds c h1
        rw [if_pos (by omega)]
    have := ih (fun x hx => h x (by simp [hx]))
    simp only [jsLength, List.map_cons, List.sum_cons, List.length_cons] at *
    omega

theorem lastChar_wordChar (c : Char) (cs : List Char) (hc : isWordChar c = true)
    (h : ∀ x ∈ cs, isWordChar x = true) :
    ∃ d, lastChar (some c) cs = some d ∧ isWordChar d = true := by
  induction cs generalizing c with
  | nil => exact ⟨c, rfl, hc⟩
  | cons x xs ih =>
    exact ih x (h x (by simp)) (fun y hy => h y (by simp [hy]))

/-! ## Membership in `ends` -/

theorem mem_ends_seq (ci : Bool) (a b : Re) (p e : Pos) :
    e ∈ ends ci (.seq a b) p ↔ ∃ m, m ∈ ends ci a p ∧ e ∈ ends ci b m := by
  simp [ends, List.mem_flatMap]

theorem mem_ends_wordB (ci : Bool) (p e : Pos) :
    e ∈ ends ci .wordB p ↔ e = p ∧ atWordBoundary p = true := by
  simp only [ends]
  split <;> simp_all

theorem mem_ends_set (ci : Bool) (s : CharSet) (prev : Option Char) (c : Char) (cs : List Char)
    (e : Pos) :
    e ∈ ends ci (.set s) ⟨prev, c :: cs⟩ ↔ e = ⟨some c, cs⟩ ∧ s.mem ci c = true := by
  simp only [ends]
  split <;> simp_all

theorem ends_set_nil (ci : Bool) (s : CharSet) (prev : Option Char) :
    ends ci (.set s) ⟨prev, []⟩ = [] := rfl

theorem repEnds_mem (f : Char → Bool) (min : Nat) (prev : Option Char) (cs rest : List Char)
    (h : ∀ c ∈ cs, f c = true) (hmin : min ≤ cs.length) :
    ⟨lastChar prev cs, rest⟩ ∈ repEnds f min prev (cs ++ rest) := by
  induction cs generalizing min prev with
  | nil =>
    have h0 : min = 0 := by simpa using hmin
    subst h0
    cases rest <;> simp [repEnds, lastChar]
  | cons c cs ih =>
    simp only [List.cons_append, repEnds, lastChar, h c (by simp), if_true, List.mem_append]
    left
    exact ih (min - 1) (some c) (fun x hx => h x (by simp [hx]))
      (by simp only [List.length_cons] at hmin; omega)

theorem matchStr_self (xs rest : List Char) (prev : Option Char) :
    matchStr false xs ⟨prev, xs ++ rest⟩ = some ⟨lastChar prev xs, rest⟩ := by
  induction xs generalizing prev with
  | nil => rfl
  | cons x xs ih => simp [matchStr, lastChar, ih]

theorem mem_ends_words (ci : Bool) (ws : List String) (w : String) (hw : w ∈ ws) (p e : Pos)
    (h : matchStr ci w.data p = some e) : e ∈ ends ci (Re.words ws) p := by
  induction ws with
  | nil => simp at hw
  | cons x xs ih =>
    cases xs with
    | nil =>
      have : w = x := by simpa using hw
      subst this
      simp [Re.words, ends, h]
    | cons y ys =>
      simp only [Re.words, ends, List.mem_append]
      rcases List.mem_cons.mp hw with hx | hx
      · left; subst hx; simp [h]
      · right; exact ih hx

/-! ## The suffix pattern on a capitalized word -/

theorem suffix_ends_rest (prev : Option Char) (u : Char) (body : List Char)
    (hu : isUpper u = true) (hb : ∀ c ∈ body, isLower c = true) (e : Pos)
    (h : e ∈ ends false suffixPattern.re ⟨prev, u :: body⟩) : e.rest = [] := by
  simp only [suffixPattern, mem_ends_seq, mem_ends_wordB] at h
  obtain ⟨m1, ⟨rfl, _⟩, m2, hm2, m3, hm3, m4, hm4, rfl, hbd⟩ := h
  rw [mem_ends_set] at hm2
  obtain ⟨rfl, _⟩ := hm2
  obtain ⟨c1, h1, h2⟩ := ends_spec _ _ _ _ hm3
  obtain ⟨c2, h3, h4⟩ := ends_spec _ _ _ _ hm4
  simp only at h1 h2
  have hbody : body = (c1 ++ c2) ++ e.rest := by rw [h1, h3, List.append_assoc]
  have hprev : e.prev = lastChar (some u) (c1 ++ c2) := by rw [h4, h2, lastChar_append]
  obtain ⟨d, hd1, hd2⟩ := lastChar_wordChar u (c1 ++ c2) (isUpper_wordChar u hu)
    (fun x hx => isLower_wordChar x (hb x (by rw [hbody]; exact List.mem_append_left _ hx)))
  cases hr : e.rest with
  | nil => rfl
  | cons x xs =>
    have hx : isWordChar x = true :=
      isLower_wordChar x (hb x (by rw [hbody, hr]; simp))
    simp [atWordBoundary, hprev, hd1, hd2, hr, hx] at hbd

theorem suffix_ends_ne_nil (prev : Option Char) (u : Char) (ls : List Char) (suf : String)
    (hp : (match prev with | some c => isWordChar c | none => false) = false)
    (hu : isUpper u = true) (hne : ls ≠ []) (hl : ∀ c ∈ ls, isLower c = true)
    (hs : suf ∈ suffixes) :
    ends false suffixPattern.re ⟨prev, u :: (ls ++ suf.data)⟩ ≠ [] := by
  have hsl : ∀ c ∈ suf.data, isLower c = true := by
    revert suf
    decide
  have hsne : suf.data ≠ [] := by
    revert suf
    decide
  obtain ⟨d, hd1, hd2⟩ := lastChar_wordChar u (ls ++ suf.data) (isUpper_wordChar u hu)
    (fun x hx => by
      rcases List.mem_append.mp hx with hx | hx
      · exact isLower_wordChar x (hl x hx)
      · exact isLower_wordChar x (hsl x hx))
  have hmem : (⟨lastChar (some u) (ls ++ suf.data), []⟩ : Pos) ∈
      ends false suffixPattern.re ⟨prev, u :: (ls ++ suf.data)⟩ := by
    simp only [suffixPattern, mem_ends_seq, mem_ends_wordB]
    refine ⟨_, ⟨rfl, ?_⟩, ⟨some u, ls ++ suf.data⟩, ?_, ⟨lastChar (some u) ls, suf.data⟩, ?_,
      _, ?_, rfl, ?_⟩
    · simp [atWordBoundary, hp, isUpper_wordChar u hu]
    · rw [mem_ends_set]; simp [CharSet.mem, hu]
    · simp only [ends]
      exact repEnds_mem _ 1 (some u) ls suf.data (by simpa [CharSet.mem] using hl)
        (by cases ls with
          | nil => exact absurd rfl hne
          | cons x xs => simp)
    · apply mem_ends_words false suffixes suf hs
      have := matchStr_self suf.data [] (lastChar (some u) ls)
      rw [List.append_nil] at this
      rw [this, lastChar_append]
    · simp [atWordBoundary, hd1, hd2]
  intro h0
  rw [h0] at hmem
  simp at hmem

theorem suffix_execAt_none (prev : Option Char) (rest : List Char)
    (h : ∀ c t, rest = c :: t → isUpper c = false) : execAt suffixPattern ⟨prev, rest⟩ = none := by
  unfold execAt
  rw [List.head?_eq_none_iff, List.eq_nil_iff_forall_not_mem]
  intro e he
  simp only [suffixPattern, mem_ends_seq, mem_ends_wordB] at he
  obtain ⟨m1, ⟨rfl, _⟩, m2, hm2, _⟩ := he
  cases rest with
  | nil => simp [ends_set_nil] at hm2
  | cons c t =>
    rw [mem_ends_set] at hm2
    simp [CharSet.mem, h c t rfl] at hm2

/-- On a capitalized word the suffix pattern matches the whole word or nothing. -/
theorem suffix_matchAll_word (prev : Option Char) (u : Char) (body : List Char)
    (hu : isUpper u = true) (hb : ∀ c ∈ body, isLower c = true) :
    (matchAllFrom suffixPattern 0 prev (u :: body) = [] ∧
        ends false suffixPattern.re ⟨prev, u :: body⟩ = []) ∨
      matchAllFrom suffixPattern 0 prev (u :: body) = [u :: body] := by
  cases hE : execAt suffixPattern ⟨prev, u :: body⟩ with
  | none =>
    left
    refine ⟨?_, by simpa [execAt, suffixPattern] using hE⟩
    simp only [matchAllFrom, hE]
    apply matchAllFrom_none
    intro a b hab
    apply suffix_execAt_none
    intro c t hc
    apply isLower_not_upper
    apply hb
    rw [← hab, hc]
    simp
  | some e =>
    right
    have hmem : e ∈ ends false suffixPattern.re ⟨prev, u :: body⟩ := by
      unfold execAt at hE
      exact List.mem_of_mem_head? hE
    have hrest := suffix_ends_rest prev u body hu hb e hmem
    simp only [matchAllFrom, hE, hrest, List.length_nil, Nat.sub_zero, List.take_length,
      List.length_cons, Nat.add_sub_cancel]
    have hskip := matchAllFrom_skip suffixPattern (some u) body []
    rw [List.append_nil] at hskip
    rw [hskip]
    simp [matchAllFrom, suffix_execAt_none]

theorem repEnds_succ_nil (f : Char → Bool) (n : Nat) (prev : Option Char) (s : List Char)
    (h : ∀ c t, s = c :: t → f c = false) : repEnds f (n + 1) prev s = [] := by
  cases s with
  | nil => simp [repEnds]
  | cons c t => simp [repEnds, h c t rfl]

/-- Without white space there is no match of a dosage form followed by `\s+`. -/
theorem words_space_none (ci : Bool) (ws : List String) (r : Re) (p : Pos)
    (h : ∀ c ∈ p.rest, isSpace c = false) :
    ends ci (.seq (Re.words ws) (.seq (.rep 1 .space) r)) p = [] := by
  rw [List.eq_nil_iff_forall_not_mem]
  intro e he
  simp only [mem_ends_seq] at he
  obtain ⟨m2, hm2, m3, hm3, _⟩ := he
  obtain ⟨cs, h1, _⟩ := ends_spec _ _ _ _ hm2
  have : repEnds (CharSet.mem ci .space) 1 m2.prev m2.rest = [] := by
    apply repEnds_succ_nil
    intro c t hc
    simp only [CharSet.mem]
    apply h
    rw [h1, hc]
    simp
  simp [ends, this] at hm3

theorem dosage_execAt_none (p : Pos) (h : ∀ c ∈ p.rest, isSpace c = false) :
    execAt dosagePattern p = none := by
  unfold execAt
  rw [List.head?_eq_none_iff, List.eq_nil_iff_forall_not_mem]
  intro e he
  simp only [dosagePattern] at he
  rw [mem_ends_seq] at he
  obtain ⟨m1, hm1, he⟩ := he
  rw [mem_ends_wordB] at hm1
  rw [hm1.1, words_space_none _ _ _ p h] at he
  simp at he

theorem cleanup_execAt_none (p : Pos) (h : ∀ c ∈ p.rest, isSpace c = false) :
    execAt cleanupPattern p = none := by
  unfold execAt
  rw [List.head?_eq_none_iff, List.eq_nil_iff_forall_not_mem]
  intro e he
  simp only [cleanupPattern] at he
  rw [mem_ends_seq] at he
  obtain ⟨m1, hm1, he⟩ := he
  have hm : m1 = p := by
    simp only [ends] at hm1
    split at hm1 <;> simp_all
  rw [hm, mem_ends_seq] at he
  obtain ⟨m2, hm2, hm3⟩ := he
  obtain ⟨cs, h1, _⟩ := ends_spec _ _ _ _ hm2
  have : repEnds (CharSet.mem true .space) 1 m2.prev m2.rest = [] := by
    apply repEnds_succ_nil
    intro c t hc
    simp only [CharSet.mem]
    apply h
    rw [h1, hc]
    simp
  simp [ends, this] at hm3

theorem allCaps_execAt_none (prev : Option Char) (rest : List Char)
    (h : ∀ c d t, rest = c :: d :: t → isUpper c = false ∨ isUpper d = false) :
    execAt allCapsPattern ⟨prev, rest⟩ = none := by
  unfold execAt
  rw [List.head?_eq_none_iff, List.eq_nil_iff_forall_not_mem]
  intro e he
  simp only [allCapsPattern] at he
  rw [mem_ends_seq] at he
  obtain ⟨m1, hm1, he⟩ := he
  rw [mem_ends_wordB] at hm1
  rw [hm1.1, mem_ends_seq] at he
  obtain ⟨m2, hm2, _⟩ := he
  have hset : ∀ x, CharSet.mem false .upper x = isUpper x := by
    intro x
    simp [CharSet.mem]
  simp only [ends] at hm2
  cases rest with
  | nil => simp [repEnds] at hm2
  | cons c t =>
    cases t with
    | nil => by_cases hc : isUpper c = true <;> simp [repEnds, hset, hc] at hm2
    | cons d t =>
      rcases h c d t rfl with hc | hd
      · simp [repEnds, hset, hc] at hm2
      · by_cases hc : isUpper c = true <;> simp [repEnds, hset, hc, hd] at hm2

/-- A text without a newline is a single line. -/
theorem splitLines_single (s : List Char) (h : ∀ c ∈ s, c ≠ '\n') : splitLines s = [s] := by
  induction s with
  | nil => rfl
  | cons c cs ih =>
    have hc : c ≠ '\n' := h c (by simp)
    simp [splitLines, hc, ih (fun x hx => h x (by simp [hx]))]

theorem collect_single_line (line : List Char) (h : ∀ c ∈ line, c ≠ '\n') :
    collect line = (lineCandidates line allCapsPattern).foldl pushNew
      ((lineCandidates line dosagePattern).foldl pushNew
        ((lineCandidates line suffixPattern).foldl pushNew [])) := by
  unfold collect
  rw [splitLines_single line h]
  simp [processLine, medicinePatterns, applyPattern_candidates]

/-! ## Capitalized words -/

theorem word_no_space (u : Char) (body : List Char) (hu : isUpper u = true)
    (hb : ∀ c ∈ body, isLower c = true) : ∀ c ∈ u :: body, isSpace c = false := by
  intro c hc
  rcases List.mem_cons.mp hc with h | h
  · rw [h]; exact isUpper_not_space u hu
  · exact isLower_not_space c (hb c h)

theorem word_no_newline (u : Char) (body : List Char) (hu : isUpper u = true)
    (hb : ∀ c ∈ body, isLower c = true) : ∀ c ∈ u :: body, c ≠ '\n' := by
  intro c hc hn
  have := word_no_space u body hu hb c hc
  rw [hn] at this
  exact absurd this (by decide)

theorem cleanup_word (u : Char) (body : List Char) (hu : isUpper u = true)
    (hb : ∀ c ∈ body, isLower c = true) : cleanup (u :: body) = u :: body := by
  unfold cleanup
  rw [replaceFirstFrom_none, trim_of_no_space _ (word_no_space u body hu hb)]
  intro a b hab
  apply cleanup_execAt_none
  intro c hc
  exact word_no_space u body hu hb c (by rw [← hab]; exact List.mem_append_right _ hc)

theorem accepted_word (u : Char) (body : List Char) (hu : isUpper u = true)
    (hb : ∀ c ∈ body, isLower c = true) (h2 : 2 ≤ body.length) (h30 : (u :: body).length < 30)
    (hex : toUpperCase (u :: body) ∉ excludeWords) : accepted (u :: body) = true := by
  have hlen : jsLength (u :: body) = (u :: body).length := by
    apply jsLength_of_wordChars
    intro c hc
    rcases List.mem_cons.mp hc with h | h
    · left; rw [h]; exact hu
    · right; exact hb c h
  unfold accepted
  rw [hlen]
  simp only [List.length_cons] at h30 ⊢
  simp [hex]
  omega

theorem dosage_none_word (u : Char) (body : List Char) (hu : isUpper u = true)
    (hb : ∀ c ∈ body, isLower c = true) :
    matchAllFrom dosagePattern 0 none (u :: body) = [] := by
  apply matchAllFrom_none
  intro a b hab
  apply dosage_execAt_none
  intro c hc
  exact word_no_space u body hu hb c (by rw [← hab]; exact List.mem_append_right _ hc)

theorem allCaps_none_word (prev : Option Char) (u : Char) (body : List Char)
    (hb : ∀ c ∈ body, isLower c = true) :
    matchAllFrom allCapsPattern 0 prev (u :: body) = [] := by
  apply matchAllFrom_none
  intro a b hab
  apply allCaps_execAt_none
  intro c d t hbt
  right
  apply isLower_not_upper
  apply hb
  subst hbt
  cases a with
  | nil =>
    simp only [List.nil_append, List.cons.injEq] at hab
    rw [← hab.2]; simp
  | cons x xs =>
    simp only [List.cons_append, List.cons.injEq] at hab
    rw [← hab.2]; simp

theorem suffixes_lower : ∀ suf ∈ suffixes, ∀ c ∈ suf.data, isLower c = true := by decide

theorem suffixes_length : ∀ suf ∈ suffixes, 2 ≤ suf.data.length := by decide

theorem suffix_not_excluded :
    ∀ suf ∈ suffixes, ∀ e ∈ excludeWords, ¬ (toUpperCase suf.data <:+ e) := by decide

/-! ## C8: the suffix rule -/

/-- C8: a word made of one upper-case letter, one or more lower-case letters and one of the
suffixes of the first pattern, shorter than 30 characters, is returned alone and unmodified;
so is "Azithromycin". -/
theorem extractMedicineNames_suffix_word (u : Char) (ls : List Char) (suf : String)
    (hu : isUpper u = true) (hne : ls ≠ []) (hl : ∀ c ∈ ls, isLower c = true)
    (hs : suf ∈ suffixes) (hlen : (u :: (ls ++ suf.data)).length < 30) :
    extractMedicineNames (String.mk (u :: (ls ++ suf.data))) = [String.mk (u :: (ls ++ suf.data))] ∧
      extractMedicineNames "Azithromycin" = ["Azithromycin"] := by
  refine ⟨?_, by decide⟩
  have hsl : ∀ c ∈ suf.data, isLower c = true := suffixes_lower suf hs
  have hs3 : 2 ≤ suf.data.length := suffixes_length suf hs
  have hb : ∀ c ∈ ls ++ suf.data, isLower c = true := by
    intro c hc
    rcases List.mem_append.mp hc with h | h
    · exact hl c h
    · exact hsl c h
  have hex : toUpperCase (u :: (ls ++ suf.data)) ∉ excludeWords := by
    intro hmem
    refine suffix_not_excluded suf hs _ hmem ⟨upperChar u :: ls.map upperChar, ?_⟩
    simp [toUpperCase]
  have hacc : accepted (u :: (ls ++ suf.data)) = true :=
    accepted_word u _ hu hb (by rw [List.length_append]; omega) hlen hex
  have h1 : lineCandidates (u :: (ls ++ suf.data)) suffixPattern = [u :: (ls ++ suf.data)] := by
    unfold lineCandidates
    rcases suffix_matchAll_word none u _ hu hb with ⟨_, h⟩ | h
    · exact absurd h (suffix_ends_ne_nil none u ls suf rfl hu hne hl hs)
    · rw [h]
      simp [cleanup_word u _ hu hb, hacc]
  have h2 : lineCandidates (u :: (ls ++ suf.data)) dosagePattern = [] := by
    unfold lineCandidates
    rw [dosage_none_word u _ hu hb]
    rfl
  have h3 : lineCandidates (u :: (ls ++ suf.data)) allCapsPattern = [] := by
    unfold lineCandidates
    rw [allCaps_none_word none u _ hb]
    rfl
  unfold extractMedicineNames
  rw [collect_single_line _ (word_no_newline u _ hu hb), h1, h2, h3]
  simp [pushNew]

/-- C8 at the word "Omeprazole". -/
theorem extractMedicineNames_suffix_word_witness :
    extractMedicineNames "Omeprazole" = ["Omeprazole"] ∧
      extractMedicineNames "Azithromycin" = ["Azithromycin"] :=
  extractMedicineNames_suffix_word 'O' "mepra".data "zole" (by decide) (by decide) (by decide)
    (by decide) (by decide)

/-! ## C4: excluded words -/

/-- C4 fails: on "PATIENT NAME AGE" the all-caps pattern matches the two words "PATIENT NAME"
together, which is no exclusion word, and `extractMedicineNames` returns it. -/
theorem extractMedicineNames_excluded_words :
    extractMedicineNames "PATIENT NAME AGE" = ["PATIENT NAME"] := by decide

/-! ## The patterns on a dosage form followed by a word -/

theorem suffix_at_dosageForm (k : String) (hk : k ∈ dosageForms) (w : List Char) :
    execAt suffixPattern ⟨none, k.data ++ ' ' :: w⟩ = none := by
  simp only [dosageForms, List.mem_cons, List.mem_singleton, List.not_mem_nil, or_false] at hk
  rcases hk with rfl | rfl | rfl | rfl | rfl | rfl | rfl <;>
    simp [execAt, suffixPattern, ends, Re.words, suffixes, matchStr, repEnds, atWordBoundary,
      isWordChar, CharSet.mem, isUpper, isLower, isDigit]

theorem isSpace_literals :
    isSpace ' ' = true ∧ isSpace 'l' = false ∧ isSpace 's' = false ∧ isSpace 'e' = false := by
  decide

theorem dosage_at_dosageForm (k : String) (hk : k ∈ dosageForms) (u : Char) (ls : List Char)
    (hu : isSpace u = false) :
    ends true dosagePattern.re ⟨none, k.data ++ ' ' :: u :: ls⟩ =
      ends true capitalizedWords ⟨some ' ', u :: ls⟩ := by
  simp only [dosageForms, List.mem_cons, List.mem_singleton, List.not_mem_nil, or_false] at hk
  rcases hk with rfl | rfl | rfl | rfl | rfl | rfl | rfl <;>
    simp [dosagePattern, ends, Re.words, dosageForms, matchStr, repEnds, atWordBoundary,
      isWordChar, CharSet.mem, isUpper, isLower, isDigit, upperChar, isSpace_literals, hu]

theorem cleanup_at_dosageForm (k : String) (hk : k ∈ dosageForms) (u : Char) (ls : List Char)
    (hu : isSpace u = false) :
    execAt cleanupPattern ⟨none, k.data ++ ' ' :: u :: ls⟩ = some ⟨some ' ', u :: ls⟩ := by
  simp only [dosageForms, List.mem_cons, List.mem_singleton, List.not_mem_nil, or_false] at hk
  rcases hk with rfl | rfl | rfl | rfl | rfl | rfl | rfl <;>
    simp [execAt, cleanupPattern, ends, Re.words, dosageForms, matchStr, repEnds,
      CharSet.mem, isUpper, isLower, upperChar, isSpace_literals, hu]

theorem matchAllFrom_step_none (pat : Pattern) (prev : Option Char) (c : Char) (cs : List Char)
    (h : execAt pat ⟨prev, c :: cs⟩ = none) :
    matchAllFrom pat 0 prev (c :: cs) = matchAllFrom pat 0 (some c) cs := by
  simp only [matchAllFrom, h]

theorem matchAllFrom_skip_none (pat : Pattern) (a b : List Char) (prev : Option Char)
    (h : ∀ a1 a2, a1 ++ a2 = a → a2 ≠ [] → execAt pat ⟨lastChar prev a1, a2 ++ b⟩ = none) :
    matchAllFrom pat 0 prev (a ++ b) = matchAllFrom pat 0 (lastChar prev a) b := by
  induction a generalizing prev with
  | nil => rfl
  | cons c cs ih =>
    have h0 := h [] (c :: cs) rfl (by simp)
    simp only [lastChar, List.cons_append] at h0
    rw [List.cons_append, matchAllFrom_step_none _ _ _ _ h0]
    simp only [lastChar]
    apply ih
    intro a1 a2 ha hne
    have := h (c :: a1) a2 (by simp [ha]) hne
    simpa [lastChar] using this

/-- A match that covers the whole string is the only match. -/
theorem matchAllFrom_whole (pat : Pattern) (prev : Option Char) (c : Char) (cs : List Char)
    (e : Pos) (hE : execAt pat ⟨prev, c :: cs⟩ = some e) (hr : e.rest = [])
    (hend : execAt pat ⟨lastChar (some c) cs, []⟩ = none) :
    matchAllFrom pat 0 prev (c :: cs) = [c :: cs] := by
  simp only [matchAllFrom, hE, hr, List.length_nil, Nat.sub_zero, List.take_length,
    List.length_cons, Nat.add_sub_cancel]
  have hskip := matchAllFrom_skip pat (some c) cs []
  rw [List.append_nil] at hskip
  rw [hskip]
  simp [matchAllFrom, hend]

theorem repEnds_head (f : Char → Bool) (min : Nat) (prev : Option Char) (cs : List Char)
    (h : ∀ c ∈ cs, f c = true) (hmin : min ≤ cs.length) :
    ∃ tl, repEnds f min prev cs = ⟨lastChar prev cs, []⟩ :: tl := by
  induction cs generalizing min prev with
  | nil =>
    have h0 : min = 0 := by simpa using hmin
    subst h0
    exact ⟨[], by simp [repEnds, lastChar]⟩
  | cons c cs ih =>
    obtain ⟨tl, htl⟩ := ih (min - 1) (some c) (fun x hx => h x (by simp [hx]))
      (by simp only [List.length_cons] at hmin; omega)
    refine ⟨tl ++ (if min = 0 then [⟨prev, c :: cs⟩] else []), ?_⟩
    simp only [repEnds, h c (by simp), if_true, lastChar, htl, List.cons_append]

/-- On a capitalized word the group of the second pattern first matches the whole word. -/
theorem capitalizedWords_head (prev : Option Char) (u : Char) (ls : List Char)
    (hu : isUpper u = true) (hne : ls ≠ []) (hl : ∀ c ∈ ls, isLower c = true) :
    (ends true capitalizedWords ⟨prev, u :: ls⟩).head? = some ⟨lastChar (some u) ls, []⟩ := by
  obtain ⟨tl, htl⟩ := repEnds_head (CharSet.mem true .lower) 1 (some u) ls
    (fun c hc => by simp [CharSet.mem, hl c hc])
    (by cases ls with
      | nil => exact absurd rfl hne
      | cons x xs => simp)
  have hset : CharSet.mem true .upper u = true := by simp [CharSet.mem, hu]
  simp [capitalizedWords, ends, hset, htl, repEnds]

theorem dosageForms_shape :
    ∀ k ∈ dosageForms, k.data ≠ [] ∧ (∀ c ∈ k.data.tail ++ [' '], isUpper c = false) ∧
      (∀ c ∈ k.data, c ≠ '\n') := by decide

theorem suffix_line (k : String) (hk : k ∈ dosageForms) (w : List Char) :
    matchAllFrom suffixPattern 0 none (k.data ++ ' ' :: w) =
      matchAllFrom suffixPattern 0 (some ' ') w := by
  have h0 := suffix_at_dosageForm k hk w
  obtain ⟨hne, hup, _⟩ := dosageForms_shape k hk
  cases hd : k.data with
  | nil => exact absurd hd hne
  | cons c t =>
    rw [hd] at h0 hup
    simp only [List.cons_append] at h0
    rw [List.cons_append, matchAllFrom_step_none _ _ _ _ h0]
    have hsplit : t ++ ' ' :: w = (t ++ [' ']) ++ w := by simp
    rw [hsplit, matchAllFrom_skip_none, lastChar_append]
    · rfl
    · intro a1 a2 ha hne2
      apply suffix_execAt_none
      intro x r hx
      apply hup
      rw [List.tail_cons, ← ha]
      cases a2 with
      | nil => exact absurd rfl hne2
      | cons y ys =>
        simp only [List.cons_append, List.cons.injEq] at hx
        rw [← hx.1]
        simp

theorem allCaps_line (k : String) (hk : k ∈ dosageForms) (u : Char) (ls : List Char)
    (hl : ∀ c ∈ ls, isLower c = true) :
    matchAllFrom allCapsPattern 0 none (k.data ++ ' ' :: u :: ls) = [] := by
  obtain ⟨hne, hup, _⟩ := dosageForms_shape k hk
  cases hd : k.data with
  | nil => exact absurd hd hne
  | cons c t =>
    rw [hd] at hup
    rw [List.tail_cons] at hup
    have h0 : execAt allCapsPattern ⟨none, c :: (t ++ ' ' :: u :: ls)⟩ = none := by
      apply allCaps_execAt_none
      intro x y r hx
      right
      apply hup
      simp only [List.cons.injEq] at hx
      cases t with
      | nil =>
        simp only [List.nil_append, List.cons.injEq] at hx
        rw [← hx.2.1]; simp
      | cons z zs =>
        simp only [List.cons_append, List.cons.injEq] at hx
        rw [← hx.2.1]; simp
    rw [List.cons_append, matchAllFrom_step_none _ _ _ _ h0]
    have hsplit : t ++ ' ' :: u :: ls = (t ++ [' ']) ++ u :: ls := by simp
    rw [hsplit, matchAllFrom_skip_none]
    · exact allCaps_none_word _ u ls hl
    · intro a1 a2 ha hne2
      apply allCaps_execAt_none
      intro x y r hx
      left
      apply hup
      rw [← ha]
      cases a2 with
      | nil => exact absurd rfl hne2
      | cons z zs =>
        simp only [List.cons_append, List.cons.injEq] at hx
        rw [← hx.1]
        simp

theorem dosage_line (k : String) (hk : k ∈ dosageForms) (u : Char) (ls : List Char)
    (hu : isUpper u = true) (hne : ls ≠ []) (hl : ∀ c ∈ ls, isLower c = true) :
    matchAllFrom dosagePattern 0 none (k.data ++ ' ' :: u :: ls) = [k.data ++ ' ' :: u :: ls] := by
  have hE : execAt dosagePattern ⟨none, k.data ++ ' ' :: u :: ls⟩ =
      some ⟨lastChar (some u) ls, []⟩ := by
    unfold execAt
    have : dosagePattern.ignoreCase = true := rfl
    rw [this, dosage_at_dosageForm k hk u ls (isUpper_not_space u hu)]
    exact capitalizedWords_head _ u ls hu hne hl
  obtain ⟨hkne, _, _⟩ := dosageForms_shape k hk
  cases hd : k.data with
  | nil => exact absurd hd hkne
  | cons c t =>
    rw [hd] at hE
    simp only [List.cons_append] at hE ⊢
    exact matchAllFrom_whole dosagePattern none c _ _ hE rfl
      (dosage_execAt_none _ (by simp))

theorem cleanup_line (k : String) (hk : k ∈ dosageForms) (u : Char) (ls : List Char)
    (hu : isUpper u = true) (hl : ∀ c ∈ ls, isLower c = true) :
    cleanup (k.data ++ ' ' :: u :: ls) = u :: ls := by
  have hE := cleanup_at_dosageForm k hk u ls (isUpper_not_space u hu)
  obtain ⟨hkne, _, _⟩ := dosageForms_shape k hk
  unfold cleanup
  cases hd : k.data with
  | nil => exact absurd hd hkne
  | cons c t =>
    rw [hd] at hE
    simp only [List.cons_append] at hE ⊢
    simp only [replaceFirstFrom, hE]
    exact trim_of_no_space _ (word_no_space u ls hu hl)

/-! ## C3: the dosage-form rule -/

/-- C3: for a dosage form `k` of the second pattern and a capitalized word `w` (an upper-case
letter and at least two lower-case letters, fewer than 30 characters, not equal to an
exclusion word ignoring case) the result for `k`, a space and `w` is exactly `[w]`; and the
result for "Tab Amoxicillin 500mg\nCap Omeprazole" is "Amoxicillin", "Omeprazole". -/
theorem extractMedicineNames_dosage_form (k : String) (u : Char) (ls : List Char)
    (hk : k ∈ dosageForms) (hu : isUpper u = true) (h2 : 2 ≤ ls.length)
    (hl : ∀ c ∈ ls, isLower c = true) (hlen : (u :: ls).length < 30)
    (hex : ∀ e ∈ excludeWords, ¬ equalsIgnoreCase (u :: ls) e) :
    extractMedicineNames (k ++ " " ++ String.mk (u :: ls)) = [String.mk (u :: ls)] ∧
      extractMedicineNames "Tab Amoxicillin 500mg\nCap Omeprazole" =
        ["Amoxicillin", "Omeprazole"] := by
  refine ⟨?_, by decide⟩
  have hne : ls ≠ [] := by
    intro h
    rw [h] at h2
    simp at h2
  have hex2 : toUpperCase (u :: ls) ∉ excludeWords := by
    intro hmem
    refine hex _ hmem ?_
    unfold equalsIgnoreCase
    rw [toUpperCase_excludeWords _ hmem]
  have hacc : accepted (u :: ls) = true := accepted_word u ls hu hl h2 hlen hex2
  have hdata : (k ++ " " ++ String.mk (u :: ls)).data = k.data ++ ' ' :: u :: ls := by
    simp
  have hnl : ∀ c ∈ k.data ++ ' ' :: u :: ls, c ≠ '\n' := by
    intro c hc
    rcases List.mem_append.mp hc with h | h
    · exact (dosageForms_shape k hk).2.2 c h
    · rcases List.mem_cons.mp h with h | h
      · rw [h]; decide
      · exact word_no_newline u ls hu hl c h
  have h1 : lineCandidates (k.data ++ ' ' :: u :: ls) suffixPattern = [] ∨
      lineCandidates (k.data ++ ' ' :: u :: ls) suffixPattern = [u :: ls] := by
    unfold lineCandidates
    rw [suffix_line k hk]
    rcases suffix_matchAll_word (some ' ') u ls hu hl with ⟨h, _⟩ | h
    · left; rw [h]; rfl
    · right; rw [h]; simp [cleanup_word u ls hu hl, hacc]
  have h2 : lineCandidates (k.data ++ ' ' :: u :: ls) dosagePattern = [u :: ls] := by
    unfold lineCandidates
    rw [dosage_line k hk u ls hu hne hl]
    simp [cleanup_line k hk u ls hu hl, hacc]
  have h3 : lineCandidates (k.data ++ ' ' :: u :: ls) allCapsPattern = [] := by
    unfold lineCandidates
    rw [allCaps_line k hk u ls hl]
    rfl
  unfold extractMedicineNames
  rw [hdata, collect_single_line _ hnl, h2, h3]
  rcases h1 with h | h <;> rw [h] <;> simp [pushNew]

/-- C3 at the dosage form "Syrup" and the word "Benadryl". -/
theorem extractMedicineNames_dosage_form_witness :
    extractMedicineNames "Syrup Benadryl" = ["Benadryl"] ∧
      extractMedicineNames "Tab Amoxicillin 500mg\nCap Omeprazole" =
        ["Amoxicillin", "Omeprazole"] :=
  extractMedicineNames_dosage_form "Syrup" 'B' "enadryl".data (by decide) (by decide)
    (by decide) (by decide) (by decide) (by unfold equalsIgnoreCase; decide)

/-! ## The characters of a candidate

Every candidate consists of ASCII letters, digits and white space only.  On these
characters `upperChar` is the upper-case mapping of JavaScript and every character is one
UTF-16 code unit. -/

theorem upperChar_isUpper (x : Char) (h : isLower x = true) : isUpper (upperChar x) = true := by
  have hb := isLower_bounds x h
  have hall : ∀ n ∈ List.range 26, isUpper (Char.ofNat (n + 65)) = true := by decide
  have hn : x.toNat - 32 = (x.toNat - 97) + 65 := by omega
  unfold upperChar
  rw [if_pos h, hn]
  exact hall _ (List.mem_range.mpr (by omega))

theorem plainChar_of_letter (c : Char) (h : isUpper c = true ∨ isLower c = true) :
    plainChar c = true := by
  unfold plainChar
  rcases h with h | h <;> simp [h]

theorem plainChar_of_canon (ci : Bool) (x c : Char) (hx : isUpper x = true ∨ isLower x = true)
    (h : (if ci then upperChar x == upperChar c else x == c) = true) : plainChar c = true := by
  cases ci with
  | false =>
    simp only [Bool.false_eq_true, if_false, beq_iff_eq] at h
    rw [← h]
    exact plainChar_of_letter x hx
  | true =>
    simp only [if_true, beq_iff_eq] at h
    by_cases hc : isLower c = true
    · exact plainChar_of_letter c (Or.inr hc)
    · have hcu : upperChar c = c := by simp [upperChar, hc]
      rw [hcu] at h
      rw [← h]
      rcases hx with hx | hx
      · have : upperChar x = x := by simp [upperChar, isUpper_not_lower x hx]
        rw [this]
        exact plainChar_of_letter x (Or.inl hx)
      · exact plainChar_of_letter _ (Or.inl (upperChar_isUpper x hx))

theorem matchStr_plain (ci : Bool) (xs : List Char)
    (hxs : ∀ x ∈ xs, isUpper x = true ∨ isLower x = true) (p e : Pos)
    (h : matchStr ci xs p = some e) :
    ∃ cs, p.rest = cs ++ e.rest ∧ ∀ c ∈ cs, plainChar c = true := by
  induction xs generalizing p with
  | nil =>
    simp only [matchStr, Option.some.injEq] at h
    exact ⟨[], by simp [h]⟩
  | cons x xs ih =>
    obtain ⟨prev, rest⟩ := p
    cases rest with
    | nil => simp [matchStr] at h
    | cons c cs =>
      simp only [matchStr] at h
      by_cases hcond : (if ci then upperChar x == upperChar c else x == c) = true
      · rw [if_pos hcond] at h
        obtain ⟨ds, h1, h2⟩ := ih (fun y hy => hxs y (by simp [hy])) _ h
        refine ⟨c :: ds, by simpa using h1, ?_⟩
        intro y hy
        rcases List.mem_cons.mp hy with hy | hy
        · rw [hy]; exact plainChar_of_canon ci x c (hxs x (by simp)) hcond
        · exact h2 y hy
      · rw [if_neg hcond] at h
        simp at h

theorem repEnds_plain (f : Char → Bool) (hf : ∀ c, f c = true → plainChar c = true) (min : Nat)
    (prev : Option Char) (s : List Char) (e : Pos) (h : e ∈ repEnds f min prev s) :
    ∃ cs, s = cs ++ e.rest ∧ ∀ c ∈ cs, plainChar c = true := by
  induction s generalizing min prev with
  | nil =>
    simp only [repEnds] at h
    split at h
    · simp only [List.mem_singleton] at h
      exact ⟨[], by simp [h]⟩
    · simp at h
  | cons c cs ih =>
    simp only [repEnds, List.mem_append] at h
    rcases h with h | h
    · by_cases hc : f c = true
      · rw [if_pos hc] at h
        obtain ⟨ds, h1, h2⟩ := ih _ _ h
        refine ⟨c :: ds, by simp [← h1], ?_⟩
        intro y hy
        rcases List.mem_cons.mp hy with hy | hy
        · rw [hy]; exact hf c hc
        · exact h2 y hy
      · rw [if_neg hc] at h
        simp at h
    · split at h
      · simp only [List.mem_singleton] at h
        exact ⟨[], by simp [h]⟩
      · simp at h

theorem mem_plain (ci : Bool) (s : CharSet) (c : Char) (h : s.mem ci c = true) :
    plainChar c = true := by
  unfold plainChar
  cases s <;> simp only [CharSet.mem, Bool.or_eq_true, Bool.and_eq_true] at h
  · rcases h with h | ⟨_, h⟩ <;> simp [h]
  · rcases h with h | ⟨_, h⟩ <;> simp [h]
  · simp [h]
  · simp [h]

/-- A match of an expression whose literals are letters consumes plain characters only. -/
theorem ends_plain (ci : Bool) (r : Re) (hr : r.plain = true) (p e : Pos)
    (h : e ∈ ends ci r p) : ∃ cs, p.rest = cs ++ e.rest ∧ ∀ c ∈ cs, plainChar c = true := by
  induction r generalizing p e with
  | fail => simp [ends] at h
  | str cs =>
    simp only [ends, Option.mem_toList, Option.mem_def] at h
    refine matchStr_plain ci cs ?_ p e h
    intro x hx
    simp only [Re.plain, List.all_eq_true, Bool.or_eq_true] at hr
    exact hr x hx
  | set s =>
    obtain ⟨prev, rest⟩ := p
    cases rest with
    | nil => simp [ends] at h
    | cons c cs =>
      rw [mem_ends_set] at h
      refine ⟨[c], by simp [h.1], ?_⟩
      intro y hy
      rw [List.mem_singleton.mp hy]
      exact mem_plain ci s c h.2
  | wordB =>
    rw [mem_ends_wordB] at h
    exact ⟨[], by simp [h.1]⟩
  | bol =>
    simp only [ends] at h
    split at h
    · simp only [List.mem_singleton] at h
      exact ⟨[], by simp [h]⟩
    · simp at h
  | seq a b iha ihb =>
    simp only [Re.plain, Bool.and_eq_true] at hr
    rw [mem_ends_seq] at h
    obtain ⟨m, hm, he⟩ := h
    obtain ⟨c1, h1, h2⟩ := iha hr.1 _ _ hm
    obtain ⟨c2, h3, h4⟩ := ihb hr.2 _ _ he
    refine ⟨c1 ++ c2, by rw [h1, h3, List.append_assoc], ?_⟩
    intro y hy
    rcases List.mem_append.mp hy with hy | hy
    · exact h2 y hy
    · exact h4 y hy
  | alt a b iha ihb =>
    simp only [Re.plain, Bool.and_eq_true] at hr
    simp only [ends, List.mem_append] at h
    rcases h with h | h
    · exact iha hr.1 _ _ h
    · exact ihb hr.2 _ _ h
  | opt a iha =>
    simp only [Re.plain] at hr
    simp only [ends, List.mem_append, List.mem_singleton] at h
    rcases h with h | h
    · exact iha hr _ _ h
    · exact ⟨[], by simp [h]⟩
  | rep min s =>
    simp only [ends] at h
    exact repEnds_plain _ (mem_plain ci s) _ _ _ _ h

theorem matchAllFrom_plain (pat : Pattern) (hr : pat.re.plain = true) (s : List Char) (skip : Nat)
    (prev : Option Char) : ∀ m ∈ matchAllFrom pat skip prev s, ∀ c ∈ m, plainChar c = true := by
  induction s generalizing skip prev with
  | nil =>
    intro m hm
    cases skip with
    | zero =>
      simp only [matchAllFrom] at hm
      split at hm
      · rw [List.mem_singleton.mp hm]; simp
      · simp at hm
    | succ k => simp [matchAllFrom] at hm
  | cons x xs ih =>
    intro m hm
    cases skip with
    | succ k =>
      simp only [matchAllFrom] at hm
      exact ih _ _ m hm
    | zero =>
      simp only [matchAllFrom] at hm
      cases hE : execAt pat ⟨prev, x :: xs⟩ with
      | none =>
        rw [hE] at hm
        exact ih _ _ m hm
      | some e =>
        rw [hE] at hm
        rcases List.mem_cons.mp hm with hm | hm
        · have hmem : e ∈ ends pat.ignoreCase pat.re ⟨prev, x :: xs⟩ := by
            unfold execAt at hE
            exact List.mem_of_mem_head? hE
          obtain ⟨cs, h1, h2⟩ := ends_plain _ _ hr _ _ hmem
          simp only at h1
          have htake : List.take ((x :: xs).length - e.rest.length) (x :: xs) = cs := by
            rw [h1, List.length_append, Nat.add_sub_cancel, List.take_left]
          rw [hm, htake]
          exact h2
        · exact ih _ _ m hm

theorem replaceFirstFrom_subset (pat : Pattern) (s : List Char) (prev : Option Char) :
    ∀ c ∈ replaceFirstFrom pat prev s, c ∈ s := by
  induction s generalizing prev with
  | nil => simp [replaceFirstFrom]
  | cons x xs ih =>
    intro c hc
    simp only [replaceFirstFrom] at hc
    cases hE : execAt pat ⟨prev, x :: xs⟩ with
    | none =>
      rw [hE] at hc
      rcases List.mem_cons.mp hc with hc | hc
      · rw [hc]; simp
      · exact List.mem_cons_of_mem _ (ih _ c hc)
    | some e =>
      rw [hE] at hc
      have hmem : e ∈ ends pat.ignoreCase pat.re ⟨prev, x :: xs⟩ := by
        unfold execAt at hE
        exact List.mem_of_mem_head? hE
      obtain ⟨cs, h1, _⟩ := ends_spec _ _ _ _ hmem
      simp only at h1
      rw [h1]
      exact List.mem_append_right _ hc

theorem trim_subset (s : List Char) : ∀ c ∈ trim s, c ∈ s := by
  intro c hc
  unfold trim at hc
  rw [List.mem_reverse] at hc
  have h1 := (List.dropWhile_sublist isSpace).subset hc
  rw [List.mem_reverse] at h1
  exact (List.dropWhile_sublist isSpace).subset h1

theorem dedupFirst_subset (xs : List (List Char)) : ∀ m ∈ dedupFirst xs, m ∈ xs := by
  induction xs with
  | nil => simp [dedupFirst]
  | cons x xs ih =>
    intro m hm
    simp only [dedupFirst] at hm
    rcases List.mem_cons.mp hm with hm | hm
    · rw [hm]; simp
    · exact List.mem_cons_of_mem _ (ih m (List.mem_filter.mp hm).1)

theorem medicinePatterns_plain : ∀ pat ∈ medicinePatterns, pat.re.plain = true := by decide

/-- Every string in the result of `extractMedicineNames` consists of ASCII letters, digits and
white space. -/
theorem extractMedicineNames_plain (text : String) (m : String)
    (h : m ∈ extractMedicineNames text) : ∀ c ∈ m.data, plainChar c = true := by
  have hm := mem_extract text m h
  rw [collect_eq_candidateList] at hm
  have hm2 := dedupFirst_subset _ _ hm
  unfold allCandidates at hm2
  simp only [List.mem_flatMap] at hm2
  obtain ⟨line, _, pat, hpat, hc⟩ := hm2
  unfold lineCandidates at hc
  obtain ⟨x, hx, hxm⟩ := List.mem_map.mp (List.mem_filter.mp hc).1
  intro c hcm
  rw [← hxm] at hcm
  unfold cleanup at hcm
  exact matchAllFrom_plain pat (medicinePatterns_plain pat hpat) line 0 none x hx c
    (replaceFirstFrom_subset _ _ _ c (trim_subset _ c hcm))

/-! ## More on the matcher: what a match consumes -/

theorem isLetter_not_space (c : Char) (h : isLetter c = true) : isSpace c = false := by
  simp only [isLetter, Bool.or_eq_true] at h
  rcases h with h | h
  · exact isUpper_not_space c h
  · exact isLower_not_space c h

theorem isLetter_of_canon (ci : Bool) (x c : Char) (hx : isLetter x = true)
    (h : (if ci then upperChar x == upperChar c else x == c) = true) : isLetter c = true := by
  have hx2 : isUpper x = true ∨ isLower x = true := by simpa [isLetter] using hx
  cases ci with
  | false =>
    simp only [Bool.false_eq_true, if_false, beq_iff_eq] at h
    rw [← h]
    exact hx
  | true =>
    simp only [if_true, beq_iff_eq] at h
    by_cases hc : isLower c = true
    · simp [isLetter, hc]
    · have hcu : upperChar c = c := by simp [upperChar, hc]
      rw [hcu] at h
      rw [← h]
      rcases hx2 with hx | hx
      · have : upperChar x = x := by simp [upperChar, isUpper_not_lower x hx]
        rw [this]
        simp [isLetter, hx]
      · simp [isLetter, upperChar_isUpper x hx]

/-- What a literal consumes: letters, equal to the literal (up to case with the `i` flag). -/
theorem matchStr_full (ci : Bool) (xs : List Char) (hxs : ∀ x ∈ xs, isLetter x = true)
    (p e : Pos) (h : matchStr ci xs p = some e) :
    ∃ cs, p.rest = cs ++ e.rest ∧ e.prev = lastChar p.prev cs ∧
      (∀ c ∈ cs, isLetter c = true) ∧
      (if ci then toUpperCase cs = toUpperCase xs else cs = xs) := by
  induction xs generalizing p with
  | nil =>
    simp only [matchStr, Option.some.injEq] at h
    exact ⟨[], by simp [h, lastChar, toUpperCase]⟩
  | cons x xs ih =>
    obtain ⟨prev, rest⟩ := p
    cases rest with
    | nil => simp [matchStr] at h
    | cons c cs =>
      simp only [matchStr] at h
      by_cases hcond : (if ci then upperChar x == upperChar c else x == c) = true
      · rw [if_pos hcond] at h
        obtain ⟨ds, h1, h2, h3, h4⟩ := ih (fun y hy => hxs y (by simp [hy])) _ h
        refine ⟨c :: ds, by simpa using h1, by simpa [lastChar] using h2, ?_, ?_⟩
        · intro y hy
          rcases List.mem_cons.mp hy with hy | hy
          · rw [hy]; exact isLetter_of_canon ci x c (hxs x (by simp)) hcond
          · exact h3 y hy
        · cases ci with
          | false =>
            simp only [Bool.false_eq_true, if_false, beq_iff_eq] at hcond h4 ⊢
            rw [hcond, h4]
          | true =>
            simp only [if_true, beq_iff_eq] at hcond h4 ⊢
            simp only [toUpperCase, List.map_cons] at h4 ⊢
            rw [hcond, h4]
      · rw [if_neg hcond] at h
        simp at h

theorem matchStr_ci_self (xs kw r : List Char) (prev : Option Char)
    (h : toUpperCase kw = toUpperCase xs) :
    matchStr true xs ⟨prev, kw ++ r⟩ = some ⟨lastChar prev kw, r⟩ := by
  induction xs generalizing kw prev with
  | nil =>
    have : kw = [] := by simpa [toUpperCase] using h
    subst this
    rfl
  | cons x xs ih =>
    cases kw with
    | nil => simp [toUpperCase] at h
    | cons c cs =>
      simp only [toUpperCase, List.map_cons, List.cons.injEq] at h
      simp only [List.cons_append, matchStr, if_true, h.1, beq_self_eq_true, lastChar]
      exact ih cs (some c) h.2

theorem ends_words_mem (ci : Bool) (ws : List String) (p e : Pos)
    (h : e ∈ ends ci (Re.words ws) p) : ∃ w ∈ ws, matchStr ci w.data p = some e := by
  induction ws with
  | nil => simp [Re.words, ends] at h
  | cons x xs ih =>
    cases xs with
    | nil =>
      simp only [Re.words, ends, Option.mem_toList, Option.mem_def] at h
      exact ⟨x, by simp, h⟩
    | cons y ys =>
      simp only [Re.words, ends, List.mem_append, Option.mem_toList, Option.mem_def] at h
      rcases h with h | h
      · exact ⟨x, by simp, h⟩
      · obtain ⟨w, hw, hm⟩ := ih h
        exact ⟨w, List.mem_cons_of_mem _ hw, hm⟩

/-- What a repetition consumes. -/
theorem repEnds_full (f : Char → Bool) (min : Nat) (prev : Option Char) (s : List Char) (e : Pos)
    (h : e ∈ repEnds f min prev s) :
    ∃ cs, s = cs ++ e.rest ∧ e.prev = lastChar prev cs ∧ (∀ c ∈ cs, f c = true) ∧
      min ≤ cs.length := by
  induction s generalizing min prev with
  | nil =>
    simp only [repEnds] at h
    split at h
    · rename_i h0
      simp only [List.mem_singleton] at h
      exact ⟨[], by simp [h, lastChar, h0]⟩
    · simp at h
  | cons c cs ih =>
    simp only [repEnds, List.mem_append] at h
    rcases h with h | h
    · by_cases hc : f c = true
      · rw [if_pos hc] at h
        obtain ⟨ds, h1, h2, h3, h4⟩ := ih _ _ h
        refine ⟨c :: ds, by simp [← h1], by simpa [lastChar] using h2, ?_, ?_⟩
        · intro y hy
          rcases List.mem_cons.mp hy with hy | hy
          · rw [hy]; exact hc
          · exact h3 y hy
        · simp only [List.length_cons]; omega
      · rw [if_neg hc] at h
        simp at h
    · split at h
      · rename_i h0
        simp only [List.mem_singleton] at h
        exact ⟨[], by simp [h, lastChar, h0]⟩
      · simp at h

/-- A greedy repetition first stops where the class stops. -/
theorem repEnds_head_stop (f : Char → Bool) (min : Nat) (prev : Option Char)
    (cs rest : List Char) (h : ∀ c ∈ cs, f c = true) (hmin : min ≤ cs.length)
    (hrest : ∀ c t, rest = c :: t → f c = false) :
    ∃ tl, repEnds f min prev (cs ++ rest) = ⟨lastChar prev cs, rest⟩ :: tl := by
  induction cs generalizing min prev with
  | nil =>
    have h0 : min = 0 := by simpa using hmin
    subst h0
    cases rest with
    | nil => exact ⟨[], by simp [repEnds, lastChar]⟩
    | cons c t => exact ⟨[], by simp [repEnds, lastChar, hrest c t rfl]⟩
  | cons c cs ih =>
    obtain ⟨tl, htl⟩ := ih (min - 1) (some c) (fun x hx => h x (by simp [hx]))
      (by simp only [List.length_cons] at hmin; omega)
    refine ⟨tl ++ (if min = 0 then [⟨prev, c :: (cs ++ rest)⟩] else []), ?_⟩
    rw [List.cons_append]
    generalize cs ++ rest = q at htl ⊢
    simp only [repEnds, h c (by simp), if_true, lastChar, htl, List.cons_append]

theorem head?_flatMap_of (l : List Pos) (f : Pos → List Pos) (P : Pos → Prop)
    (h1 : ∀ x ∈ l, f x = [] ∨ ∃ y, (f x).head? = some y ∧ P y)
    (h2 : ∃ x ∈ l, f x ≠ []) : ∃ y, (l.flatMap f).head? = some y ∧ P y := by
  induction l with
  | nil => simp at h2
  | cons x xs ih =>
    rcases h1 x (by simp) with h | ⟨y, hy, hP⟩
    · rw [List.flatMap_cons, h, List.nil_append]
      apply ih (fun z hz => h1 z (by simp [hz]))
      obtain ⟨z, hz, hne⟩ := h2
      rcases List.mem_cons.mp hz with hz | hz
      · rw [hz] at hne; exact absurd h hne
      · exact ⟨z, hz, hne⟩
    · refine ⟨y, ?_, hP⟩
      rw [List.flatMap_cons]
      cases hfx : f x with
      | nil => rw [hfx] at hy; simp at hy
      | cons a as => rw [hfx] at hy; simpa using hy

/-- Every match that `matchAllFrom` reports is what the pattern consumed from some position. -/
theorem matchAllFrom_mem (pat : Pattern) (s : List Char) (skip : Nat) (prev : Option Char)
    (m : List Char) (hm : m ∈ matchAllFrom pat skip prev s) :
    ∃ p e, e ∈ ends pat.ignoreCase pat.re p ∧ p.rest = m ++ e.rest := by
  induction s generalizing skip prev with
  | nil =>
    cases skip with
    | zero =>
      simp only [matchAllFrom] at hm
      cases hE : execAt pat ⟨prev, []⟩ with
      | none => rw [hE] at hm; simp at hm
      | some e =>
        rw [hE] at hm
        have hmem : e ∈ ends pat.ignoreCase pat.re ⟨prev, []⟩ := by
          unfold execAt at hE
          exact List.mem_of_mem_head? hE
        obtain ⟨cs, h1, _⟩ := ends_spec _ _ _ _ hmem
        simp only at h1
        have hr : e.rest = [] := by
          cases cs with
          | nil => simpa using h1.symm
          | cons a as => simp at h1
        refine ⟨⟨prev, []⟩, e, hmem, ?_⟩
        simp [List.mem_singleton.mp hm, hr]
    | succ k => simp [matchAllFrom] at hm
  | cons x xs ih =>
    cases skip with
    | succ k =>
      simp only [matchAllFrom] at hm
      exact ih _ _ hm
    | zero =>
      simp only [matchAllFrom] at hm
      cases hE : execAt pat ⟨prev, x :: xs⟩ with
      | none =>
        rw [hE] at hm
        exact ih _ _ hm
      | some e =>
        rw [hE] at hm
        rcases List.mem_cons.mp hm with hm | hm
        · have hmem : e ∈ ends pat.ignoreCase pat.re ⟨prev, x :: xs⟩ := by
            unfold execAt at hE
            exact List.mem_of_mem_head? hE
          obtain ⟨cs, h1, _⟩ := ends_spec _ _ _ _ hmem
          simp only at h1
          have htake : List.take ((x :: xs).length - e.rest.length) (x :: xs) = cs := by
            rw [h1, List.length_append, Nat.add_sub_cancel, List.take_left]
          refine ⟨⟨prev, x :: xs⟩, e, hmem, ?_⟩
          rw [hm, htake]
          exact h1
        · exact ih _ _ hm

theorem trim_of_ends (s : List Char) (h1 : ∀ c t, s = c :: t → isSpace c = false)
    (h2 : ∀ c t, s.reverse = c :: t → isSpace c = false) : trim s = s := by
  unfold trim
  have e1 : s.dropWhile isSpace = s := by
    cases s with
    | nil => rfl
    | cons c cs => simp [List.dropWhile, h1 c cs rfl]
  rw [e1]
  have e2 : s.reverse.dropWhile isSpace = s.reverse := by
    cases hr : s.reverse with
    | nil => rfl
    | cons c cs => simp [List.dropWhile, h2 c cs hr]
  rw [e2, List.reverse_reverse]

/-! ## The cleanup of a match that begins with a dosage form -/

theorem dosageForms_letters :
    ∀ k ∈ dosageForms, (∀ x ∈ k.data, isLetter x = true) ∧ k.data ≠ [] := by decide

theorem keyword_letters (k : String) (hk : k ∈ dosageForms) (kw : List Char)
    (hkw : toUpperCase kw = toUpperCase k.data) : (∀ c ∈ kw, isLetter c = true) ∧ kw ≠ [] := by
  constructor
  · have hm := matchStr_ci_self k.data kw [] none hkw
    obtain ⟨cs, h1, _, h3, _⟩ := matchStr_full true k.data (dosageForms_letters k hk).1 _ _ hm
    simp only [List.append_nil] at h1
    rw [h1]
    exact h3
  · intro h0
    rw [h0] at hkw
    have : k.data = [] := by simpa [toUpperCase] using hkw.symm
    exact (dosageForms_letters k hk).2 this

theorem lastChar_of_reverse (prev : Option Char) (m : List Char) (c : Char) (t : List Char)
    (h : m.reverse = c :: t) : lastChar prev m = some c := by
  have hm : m = t.reverse ++ [c] := by
    have := congrArg List.reverse h
    simpa using this
  rw [hm, lastChar_append]
  rfl

theorem lastChar_mem (prev : Option Char) (cs : List Char) (h : cs ≠ []) :
    ∃ c ∈ cs, lastChar prev cs = some c := by
  cases hr : cs.reverse with
  | nil => exact absurd (List.reverse_eq_nil_iff.mp hr) h
  | cons c t =>
    refine ⟨c, ?_, lastChar_of_reverse prev cs c t hr⟩
    have : c ∈ cs.reverse := by rw [hr]; simp
    simpa using this

/-- On a dosage form, white space and a rest that does not begin with white space, the
cleanup pattern matches at the start and ends before the rest. -/
theorem cleanup_execAt_strip (k : String) (hk : k ∈ dosageForms) (kw sp rest : List Char)
    (hkw : toUpperCase kw = toUpperCase k.data) (hsp : sp ≠ [])
    (hsp2 : ∀ c ∈ sp, isSpace c = true) (hrest : ∀ c t, rest = c :: t → isSpace c = false) :
    ∃ y, execAt cleanupPattern ⟨none, kw ++ sp ++ rest⟩ = some y ∧ y.rest = rest := by
  obtain ⟨hkl, _⟩ := keyword_letters k hk kw hkw
  have hE : execAt cleanupPattern ⟨none, kw ++ sp ++ rest⟩ =
      ((ends true (Re.words dosageForms) ⟨none, kw ++ sp ++ rest⟩).flatMap
        (fun x => repEnds isSpace 1 x.prev x.rest)).head? := by
    simp [execAt, cleanupPattern, ends]
    rfl
  rw [hE]
  apply head?_flatMap_of _ _ (fun y => y.rest = rest)
  · intro x hx
    obtain ⟨w, hw, hm⟩ := ends_words_mem _ _ _ _ hx
    obtain ⟨cs, h1, _, h3, _⟩ := matchStr_full true w.data (dosageForms_letters w hw).1 _ _ hm
    simp only [List.append_assoc] at h1
    have h1s := h1.symm
    rw [List.append_eq_append_iff] at h1s
    have hgood : x.rest = sp ++ rest →
        ∃ y, (repEnds isSpace 1 x.prev x.rest).head? = some y ∧ y.rest = rest := by
      intro hx2
      obtain ⟨tl, htl⟩ := repEnds_head_stop isSpace 1 x.prev sp rest hsp2
        (by cases sp with
          | nil => exact absurd rfl hsp
          | cons a as => simp) hrest
      rw [hx2, htl]
      exact ⟨_, rfl, rfl⟩
    rcases h1s with ⟨a, ha1, ha2⟩ | ⟨a, ha1, ha2⟩
    · cases a with
      | nil =>
        right
        exact hgood (by simpa using ha2)
      | cons z zs =>
        left
        apply repEnds_succ_nil
        intro c t hc
        rw [ha2] at hc
        simp only [List.cons_append, List.cons.injEq] at hc
        rw [← hc.1]
        exact isLetter_not_space z (hkl z (by rw [ha1]; simp))
    · cases a with
      | nil =>
        right
        exact hgood (by simpa using ha2.symm)
      | cons z zs =>
        right
        exfalso
        have hz : isLetter z = true := h3 z (by rw [ha1]; simp)
        have hz2 := isLetter_not_space z hz
        cases sp with
        | nil => exact hsp rfl
        | cons s0 ss =>
          simp only [List.cons_append, List.cons.injEq] at ha2
          have := hsp2 s0 (by simp)
          rw [ha2.1, hz2] at this
          exact Bool.false_ne_true this
  · refine ⟨⟨lastChar none kw, sp ++ rest⟩, ?_, ?_⟩
    · apply mem_ends_words true dosageForms k hk
      rw [List.append_assoc]
      exact matchStr_ci_self k.data kw (sp ++ rest) none hkw
    · obtain ⟨tl, htl⟩ := repEnds_head_stop isSpace 1 (lastChar none kw) sp rest hsp2
        (by cases sp with
          | nil => exact absurd rfl hsp
          | cons a as => simp) hrest
      simp only [htl]
      simp

/-- The cleanup removes a leading dosage form together with the white space after it. -/
theorem cleanup_strip (k : String) (hk : k ∈ dosageForms) (kw sp rest : List Char)
    (hkw : toUpperCase kw = toUpperCase k.data) (hsp : sp ≠ [])
    (hsp2 : ∀ c ∈ sp, isSpace c = true) (hrest : ∀ c t, rest = c :: t → isSpace c = false) :
    cleanup (kw ++ sp ++ rest) = trim rest := by
  obtain ⟨y, hy, hyr⟩ := cleanup_execAt_strip k hk kw sp rest hkw hsp hsp2 hrest
  obtain ⟨_, hne⟩ := keyword_letters k hk kw hkw
  unfold cleanup
  cases kw with
  | nil => exact absurd rfl hne
  | cons c t =>
    simp only [List.cons_append] at hy ⊢
    simp only [replaceFirstFrom, hy, hyr]

/-! ## C11: what the dosage-form rule emits -/

theorem letterWord_head (w : List Char) (h : LetterWord w) :
    ∃ c t, w = c :: t ∧ isLetter c = true := by
  obtain ⟨hl, ha⟩ := h
  cases w with
  | nil => simp at hl
  | cons c t => exact ⟨c, t, rfl, ha c (by simp)⟩

theorem letterWord_last (w : List Char) (h : LetterWord w) :
    ∃ c t, w.reverse = c :: t ∧ isLetter c = true := by
  obtain ⟨hl, ha⟩ := h
  cases hr : w.reverse with
  | nil =>
    have : w = [] := List.reverse_eq_nil_iff.mp hr
    rw [this] at hl
    simp at hl
  | cons c t =>
    refine ⟨c, t, rfl, ha c ?_⟩
    have : c ∈ w.reverse := by rw [hr]; simp
    simpa using this

theorem letterWords_head (w : List Char) (h : OneOrTwoWords LetterWord w) :
    ∀ c t, w = c :: t → isSpace c = false := by
  obtain ⟨w1, h1, h2⟩ := h
  obtain ⟨a, r, ha, hal⟩ := letterWord_head w1 h1
  intro c t hc
  rcases h2 with h2 | ⟨sp, w2, _, _, _, h2⟩
  · rw [h2, ha] at hc
    simp only [List.cons.injEq] at hc
    rw [← hc.1]
    exact isLetter_not_space a hal
  · rw [h2, ha] at hc
    simp only [List.cons_append, List.cons.injEq] at hc
    rw [← hc.1]
    exact isLetter_not_space a hal

theorem letterWords_last (w : List Char) (h : OneOrTwoWords LetterWord w) :
    ∀ c t, w.reverse = c :: t → isSpace c = false := by
  obtain ⟨w1, h1, h2⟩ := h
  intro c t hc
  rcases h2 with h2 | ⟨sp, w2, _, _, hw2, h2⟩
  · obtain ⟨a, r, ha, hal⟩ := letterWord_last w1 h1
    rw [h2, ha] at hc
    simp only [List.cons.injEq] at hc
    rw [← hc.1]
    exact isLetter_not_space a hal
  · obtain ⟨a, r, ha, hal⟩ := letterWord_last w2 hw2
    rw [h2, List.reverse_append, ha] at hc
    simp only [List.cons_append, List.cons.injEq] at hc
    rw [← hc.1]
    exact isLetter_not_space a hal

theorem mem_upper_ci (c : Char) (h : CharSet.mem true .upper c = true) : isLetter c = true := by
  simpa [CharSet.mem, isLetter] using h

theorem mem_lower_ci (c : Char) (h : CharSet.mem true .lower c = true) : isLetter c = true := by
  simp only [CharSet.mem, Bool.true_and, Bool.or_eq_true] at h
  simp only [isLetter, Bool.or_eq_true]
  exact h.symm

/-- With the `i` flag, `[A-Z][a-z]+` consumes a word of two or more letters. -/
theorem letterWord_ends (p e : Pos)
    (h : e ∈ ends true (.seq (.set .upper) (.rep 1 .lower)) p) :
    ∃ w, p.rest = w ++ e.rest ∧ LetterWord w := by
  rw [mem_ends_seq] at h
  obtain ⟨m, hm, he⟩ := h
  obtain ⟨prev, rest⟩ := p
  cases rest with
  | nil => simp [ends_set_nil] at hm
  | cons u r =>
    rw [mem_ends_set] at hm
    obtain ⟨rfl, hu⟩ := hm
    simp only [ends] at he
    obtain ⟨cs, h1, _, h3, h4⟩ := repEnds_full _ _ _ _ _ he
    refine ⟨u :: cs, by simp [h1], ?_, ?_⟩
    · simp only [List.length_cons]; omega
    · intro c hc
      rcases List.mem_cons.mp hc with hc | hc
      · rw [hc]; exact mem_upper_ci u hu
      · exact mem_lower_ci c (h3 c hc)

/-- What the group of the second pattern consumes: one or two words of letters. -/
theorem capitalizedWords_ends (p e : Pos) (h : e ∈ ends true capitalizedWords p) :
    ∃ w, p.rest = w ++ e.rest ∧ OneOrTwoWords LetterWord w := by
  have hsplit : ∃ m, m ∈ ends true (.seq (.set .upper) (.rep 1 .lower)) p ∧
      e ∈ ends true (.opt (.seq (.rep 1 .space) (.seq (.set .upper) (.rep 1 .lower)))) m := by
    simp only [capitalizedWords, mem_ends_seq] at h
    obtain ⟨m1, hm1, m2, hm2, he⟩ := h
    exact ⟨m2, by rw [mem_ends_seq]; exact ⟨m1, hm1, hm2⟩, he⟩
  obtain ⟨m, hm, he⟩ := hsplit
  obtain ⟨w1, hw1, hl1⟩ := letterWord_ends p m hm
  simp only [ends, List.mem_append, List.mem_singleton, List.mem_flatMap] at he
  rcases he with ⟨m3, hm3, he⟩ | he
  · obtain ⟨sp, hs1, _, hs3, hs4⟩ := repEnds_full _ _ _ _ _ hm3
    have he2 : e ∈ ends true (.seq (.set .upper) (.rep 1 .lower)) m3 := by
      simpa only [ends, List.mem_flatMap] using he
    obtain ⟨w2, hw2, hl2⟩ := letterWord_ends m3 e he2
    refine ⟨w1 ++ sp ++ w2, ?_, w1, hl1, Or.inr ⟨sp, w2, ?_, ?_, hl2, rfl⟩⟩
    · rw [hw1, hs1, hw2]; simp
    · intro h0
      rw [h0] at hs4
      simp at hs4
    · intro c hc
      simpa [CharSet.mem] using hs3 c hc
  · refine ⟨w1, ?_, w1, hl1, Or.inl rfl⟩
    rw [hw1, he]

/-- What the second pattern consumes: a dosage form, white space and one or two words. -/
theorem dosage_ends_shape (p e : Pos) (h : e ∈ ends true dosagePattern.re p) :
    ∃ k ∈ dosageForms, ∃ kw sp w, p.rest = kw ++ sp ++ w ++ e.rest ∧
      toUpperCase kw = toUpperCase k.data ∧ sp ≠ [] ∧ (∀ c ∈ sp, isSpace c = true) ∧
      OneOrTwoWords LetterWord w := by
  simp only [dosagePattern, mem_ends_seq, mem_ends_wordB] at h
  obtain ⟨m1, ⟨rfl, _⟩, m2, hm2, m3, hm3, he⟩ := h
  obtain ⟨k, hk, hmk⟩ := ends_words_mem _ _ _ _ hm2
  obtain ⟨kw, hk1, _, _, hk4⟩ := matchStr_full true k.data (dosageForms_letters k hk).1 _ _ hmk
  simp only [ends] at hm3
  obtain ⟨sp, hs1, _, hs3, hs4⟩ := repEnds_full _ _ _ _ _ hm3
  obtain ⟨w, hw1, hw2⟩ := capitalizedWords_ends m3 e he
  refine ⟨k, hk, kw, sp, w, ?_, by simpa using hk4, ?_, ?_, hw2⟩
  · rw [hk1, hs1, hw1]; simp
  · intro h0
    rw [h0] at hs4
    simp at hs4
  · intro c hc
    simpa [CharSet.mem] using hs3 c hc

/-- Every cleaned match of the second pattern is one or two words of letters. -/
theorem dosage_cleanup_words (line m : List Char)
    (hm : m ∈ matchAllFrom dosagePattern 0 none line) :
    OneOrTwoWords LetterWord (cleanup m) := by
  obtain ⟨p, e, he, hp⟩ := matchAllFrom_mem _ _ _ _ _ hm
  obtain ⟨k, hk, kw, sp, w, h1, h2, h3, h4, h5⟩ := dosage_ends_shape p e he
  have hmw : m = kw ++ sp ++ w := by
    rw [hp] at h1
    exact List.append_cancel_right h1
  rw [hmw, cleanup_strip k hk kw sp w h2 h3 h4 (letterWords_head w h5),
    trim_of_ends w (letterWords_head w h5) (letterWords_last w h5)]
  exact h5

/-- C11, as amended: every candidate that the dosage-form rule emits on a line consists of
one or two words, each of two or more ASCII letters of either case (the pattern has the `i`
flag). -/
theorem dosage_candidates_letterWords (line c : List Char)
    (h : c ∈ lineCandidates line dosagePattern) : OneOrTwoWords LetterWord c := by
  unfold lineCandidates at h
  obtain ⟨m, hm, hc⟩ := List.mem_map.mp (List.mem_filter.mp h).1
  rw [← hc]
  exact dosage_cleanup_words line m hm

/-- C11, as amended, at the line "tab amoxicillin". -/
theorem dosage_candidates_letterWords_witness :
    "amoxicillin".data ∈ lineCandidates "tab amoxicillin".data dosagePattern ∧
      OneOrTwoWords LetterWord "amoxicillin".data :=
  ⟨by decide, dosage_candidates_letterWords "tab amoxicillin".data "amoxicillin".data (by decide)⟩

/-- C11 as stated fails: on the line "tab amoxicillin" the dosage-form rule emits
"amoxicillin", which does not begin with an upper-case letter. -/
theorem dosage_candidates_not_capitalized :
    ¬ (∀ c ∈ lineCandidates "tab amoxicillin".data dosagePattern,
        OneOrTwoWords CapitalizedWord c) := by
  intro h
  obtain ⟨w1, ⟨u, ls, hw, hu, _, _⟩, h2⟩ := h "amoxicillin".data (by decide)
  have hhead : u = 'a' := by
    rcases h2 with h2 | ⟨sp, w2, _, _, _, h2⟩
    · rw [hw] at h2
      have := congrArg List.head? h2
      simpa using this.symm
    · rw [hw] at h2
      have := congrArg List.head? h2
      simpa using this.symm
  rw [hhead] at hu
  exact absurd hu (by decide)

/-! ## C12: deduplication is case-sensitive -/

/-- C12: on "Tab Amoxicillin\ntab amoxicillin" the result holds both "Amoxicillin" and
"amoxicillin", as two entries, "Amoxicillin" first. -/
theorem extractMedicineNames_case_sensitive :
    extractMedicineNames "Tab Amoxicillin\ntab amoxicillin" = ["Amoxicillin", "amoxicillin"] := by
  decide

/-! ## C14: the cleanup applies to the matches of every rule -/

theorem mem_ends_opt (ci : Bool) (a : Re) (p e : Pos) :
    e ∈ ends ci (.opt a) p ↔ e ∈ ends ci a p ∨ e = p := by
  simp [ends]

theorem repEnds_prev (f : Char → Bool) (n : Nat) (prev : Option Char) (s : List Char) (e : Pos)
    (h : e ∈ repEnds f (n + 1) prev s) : ∃ c, e.prev = some c ∧ f c = true := by
  obtain ⟨cs, _, h2, h3, h4⟩ := repEnds_full _ _ _ _ _ h
  have hne : cs ≠ [] := by
    intro h0
    rw [h0] at h4
    simp at h4
  obtain ⟨c, hc, hl⟩ := lastChar_mem prev cs hne
  exact ⟨c, by rw [h2, hl], h3 c hc⟩

theorem units_letters :
    ∀ w ∈ ["mg", "mcg", "ml", "g"], (∀ x ∈ w.data, isLetter x = true) ∧ w.data ≠ [] := by
  decide

/-- A match of the all-caps pattern ends with a character that is no white space. -/
theorem allCaps_end_prev (p e : Pos) (h : e ∈ ends false allCapsPattern.re p) :
    ∃ c, e.prev = some c ∧ isSpace c = false := by
  simp only [allCapsPattern, mem_ends_seq, mem_ends_wordB] at h
  obtain ⟨m1, ⟨rfl, _⟩, m2, hm2, m3, hm3, he⟩ := h
  have hupper : ∀ c, CharSet.mem false .upper c = true → isSpace c = false := by
    intro c hc
    apply isUpper_not_space
    simpa [CharSet.mem] using hc
  have h2 : ∃ c, m2.prev = some c ∧ isSpace c = false := by
    simp only [ends] at hm2
    obtain ⟨c, hc1, hc2⟩ := repEnds_prev _ 1 _ _ _ hm2
    exact ⟨c, hc1, hupper c hc2⟩
  have h3 : ∃ c, m3.prev = some c ∧ isSpace c = false := by
    rw [mem_ends_opt, mem_ends_seq] at hm3
    rcases hm3 with ⟨m, _, hm⟩ | hm
    · simp only [ends] at hm
      obtain ⟨c, hc1, hc2⟩ := repEnds_prev _ 0 _ _ _ hm
      exact ⟨c, hc1, hupper c hc2⟩
    · rw [hm]; exact h2
  rw [mem_ends_opt] at he
  simp only [mem_ends_seq] at he
  rcases he with ⟨m4, _, m5, _, he⟩ | he
  · obtain ⟨w, hw, hmw⟩ := ends_words_mem _ _ _ _ he
    obtain ⟨cs, _, hc2, hc3, hc4⟩ := matchStr_full false w.data (units_letters w hw).1 _ _ hmw
    simp only [Bool.false_eq_true, if_false] at hc4
    have hne : cs ≠ [] := by rw [hc4]; exact (units_letters w hw).2
    obtain ⟨c, hc, hl⟩ := lastChar_mem m5.prev cs hne
    exact ⟨c, by rw [hc2, hl], isLetter_not_space c (hc3 c hc)⟩
  · rw [he]; exact h3

theorem allCaps_match_last (line m : List Char)
    (hm : m ∈ matchAllFrom allCapsPattern 0 none line) :
    ∀ c t, m.reverse = c :: t → isSpace c = false := by
  obtain ⟨p, e, he, hp⟩ := matchAllFrom_mem _ _ _ _ _ hm
  obtain ⟨cs, h1, h2⟩ := ends_spec _ _ _ _ he
  have hcs : m = cs := by
    rw [hp] at h1
    exact List.append_cancel_right h1
  obtain ⟨d, hd1, hd2⟩ := allCaps_end_prev p e he
  intro c t hc
  have := lastChar_of_reverse p.prev m c t hc
  rw [hcs, ← h2, hd1] at this
  simp only [Option.some.injEq] at this
  rw [← this]
  exact hd2

/-- C14: the cleanup is applied to the matches of every rule; a match of the all-caps rule
that begins with a dosage form (in any letter case) followed by white space is emitted
without that dosage form and white space; and "CAP 500mg" gives "500mg". -/
theorem cleanup_allCaps_match (line m : List Char) (k : String) (kw sp rest : List Char)
    (hm : m ∈ matchAllFrom allCapsPattern 0 none line) (hk : k ∈ dosageForms)
    (hkw : toUpperCase kw = toUpperCase k.data) (hsp : sp ≠ [])
    (hsp2 : ∀ c ∈ sp, isSpace c = true) (hrest : ∀ c t, rest = c :: t → isSpace c = false)
    (hshape : m = kw ++ sp ++ rest) :
    cleanup m = rest ∧
      (∀ (pat : Pattern) (ms : List (List Char)), applyPattern line ms pat =
        (((matchAllFrom pat 0 none line).map cleanup).filter accepted).foldl pushNew ms) ∧
      extractMedicineNames "CAP 500mg" = ["500mg"] := by
  refine ⟨?_, fun pat ms => applyPattern_candidates line ms pat, by decide⟩
  have hlast := allCaps_match_last line m hm
  rw [hshape] at hlast ⊢
  rw [cleanup_strip k hk kw sp rest hkw hsp hsp2 hrest]
  apply trim_of_ends rest hrest
  intro c t hc
  apply hlast c (t ++ (kw ++ sp).reverse)
  rw [List.reverse_append, hc]
  simp

/-- C14 at the line "CAP 500mg", whose all-caps match is the whole line. -/
theorem cleanup_allCaps_match_witness :
    cleanup "CAP 500mg".data = "500mg".data ∧
      (∀ (pat : Pattern) (ms : List (List Char)), applyPattern "CAP 500mg".data ms pat =
        (((matchAllFrom pat 0 none "CAP 500mg".data).map cleanup).filter accepted).foldl
          pushNew ms) ∧
      extractMedicineNames "CAP 500mg" = ["500mg"] :=
  cleanup_allCaps_match "CAP 500mg".data "CAP 500mg".data "Cap" "CAP".data " ".data "500mg".data
    (by decide) (by decide) (by decide) (by decide) (by decide)
    (by intro c t h; injection h with h1 h2; rw [← h1]; decide) (by decide)

end PrescriptionScanner

namespace BookingWizard

open PrescriptionScanner

/-! ## C13: the step counter -/

theorem step_currentStep_pos (s : BookingState) (a : Action) (h : 1 ≤ s.currentStep) :
    1 ≤ (step s a).currentStep := by
  cases a with
  | selectService v => exact h
  | inputDate v => exact h
  | selectTime v => exact h
  | selectDoctor v => exact h
  | next form =>
    simp only [step, goToNextStep]
    split
    · simp only; omega
    · exact h
  | previous =>
    simp only [step, goToPreviousStep]
    split
    · simp only; omega
    · exact h
  | reset => simp [step, resetBooking]

/-- The step counter never falls below 1. -/
theorem run_currentStep_pos (trace : List Action) (s : BookingState) (h : 1 ≤ s.currentStep) :
    1 ≤ (run trace s).currentStep := by
  induction trace generalizing s with
  | nil => exact h
  | cons a as ih => exact ih _ (step_currentStep_pos s a h)

theorem step_currentStep_le (s : BookingState) (a : Action)
    (ha : ∀ form, a = .next form → validatePatientForm form = false)
    (h : 1 ≤ s.currentStep ∧ s.currentStep ≤ 4) :
    1 ≤ (step s a).currentStep ∧ (step s a).currentStep ≤ 4 := by
  refine ⟨step_currentStep_pos s a h.1, ?_⟩
  cases a with
  | selectService v => exact h.2
  | inputDate v => exact h.2
  | selectTime v => exact h.2
  | selectDoctor v => exact h.2
  | next form =>
    simp only [step, goToNextStep]
    split
    · rename_i hv
      simp only
      by_cases h4 : s.currentStep = 4
      · have h1 : ¬ s.currentStep = 1 := by omega
        have h2 : ¬ s.currentStep = 2 := by omega
        have h3 : ¬ s.currentStep = 3 := by omega
        unfold validateCurrentStep at hv
        rw [if_neg h1, if_neg h2, if_neg h3, if_pos h4, ha form rfl] at hv
        exact absurd hv (by decide)
      · omega
    · exact h.2
  | previous =>
    simp only [step, goToPreviousStep]
    split
    · simp only; omega
    · exact h.2
  | reset => simp [step, resetBooking]

/-- As long as `goToNextStep` is never called with a valid patient form, the step counter
stays between 1 and 4. -/
theorem run_currentStep_le (trace : List Action) (s : BookingState)
    (ha : ∀ a ∈ trace, ∀ form, a = .next form → validatePatientForm form = false)
    (h : 1 ≤ s.currentStep ∧ s.currentStep ≤ 4) :
    1 ≤ (run trace s).currentStep ∧ (run trace s).currentStep ≤ 4 := by
  induction trace generalizing s with
  | nil => exact h
  | cons a as ih =>
    exact ih _ (fun b hb => ha b (List.mem_cons_of_mem _ hb))
      (step_currentStep_le s a (ha a (by simp)) h)

/-- C13 fails: a booking carried through its four steps stands at step 4, and one more call
of `goToNextStep` with a valid patient form sets `currentStep` to 5. -/
theorem currentStep_overrun :
    validatePatientForm validForm = true ∧
      (run (overrunTrace.take 7) bookingState).currentStep = 4 ∧
      (run overrunTrace bookingState).currentStep = 5 := by
  decide

/-! ## C15: `goToNextStep` -/

/-- At the steps 1, 2 and 3 `goToNextStep` increases `currentStep` by 1 when the selection of
the step is made (service; date and time; doctor) and leaves `bookingState` as it is
otherwise; at every step it changes nothing when the validation fails and only
`currentStep`, by 1, when it passes. -/
theorem goToNextStep_spec (form : PatientForm) (s : BookingState)
    (h : s.currentStep = 1 ∨ s.currentStep = 2 ∨ s.currentStep = 3) :
    goToNextStep form s =
        (if (s.currentStep = 1 ∧ truthy s.service = true) ∨
            (s.currentStep = 2 ∧ truthy s.date = true ∧ truthy s.time = true) ∨
            (s.currentStep = 3 ∧ truthy s.doctor = true)
          then { s with currentStep := s.currentStep + 1 } else s) ∧
      (∀ (f : PatientForm) (t : BookingState), validateCurrentStep f t = false →
        goToNextStep f t = t) ∧
      (∀ (f : PatientForm) (t : BookingState), validateCurrentStep f t = true →
        goToNextStep f t = { t with currentStep := t.currentStep + 1 }) := by
  refine ⟨?_, ?_, ?_⟩
  · rcases h with h | h | h
    · by_cases hs : truthy s.service = true <;>
        simp [goToNextStep, validateCurrentStep, h, hs]
    · by_cases hd : truthy s.date = true <;> by_cases ht : truthy s.time = true <;>
        simp [goToNextStep, validateCurrentStep, h, hd, ht]
    · by_cases hs : truthy s.doctor = true <;>
        simp [goToNextStep, validateCurrentStep, h, hs]
  · intro f t hv
    simp [goToNextStep, hv]
  · intro f t hv
    simp [goToNextStep, hv]

/-- At step 2 with a date and no time `goToNextStep` changes nothing. -/
theorem goToNextStep_spec_witness :
    goToNextStep validForm { bookingState with date := some "2026-11-05", currentStep := 2 } =
        { bookingState with date := some "2026-11-05", currentStep := 2 } ∧
      (∀ (f : PatientForm) (t : BookingState), validateCurrentStep f t = false →
        goToNextStep f t = t) ∧
      (∀ (f : PatientForm) (t : BookingState), validateCurrentStep f t = true →
        goToNextStep f t = { t with currentStep := t.currentStep + 1 }) :=
  goToNextStep_spec validForm { bookingState with date := some "2026-11-05", currentStep := 2 }
    (by decide)

/-- C15 fails beyond step 3: at step 4, reached by a complete booking, `goToNextStep` with a
valid patient form sets `currentStep` to 5, and at step 5 `goToNextStep` with an empty form
sets it to 6, although none of the three conditions of the claim is met there. -/
theorem goToNextStep_beyond_last_step :
    (run (overrunTrace.take 7) bookingState).currentStep = 4 ∧
      goToNextStep validForm (run (overrunTrace.take 7) bookingState) =
        { run (overrunTrace.take 7) bookingState with currentStep := 5 } ∧
      goToNextStep { fullName := "", email := "", phone := "", terms := false }
          (run overrunTrace bookingState) =
        { run overrunTrace bookingState with currentStep := 6 } := by
  decide

/-! ## C16: `formatTime` -/

theorem splitOn_single (sep : Char) (s : List Char) (h : sep ∉ s) : splitOn sep s = [s] := by
  induction s with
  | nil => rfl
  | cons c cs ih =>
    have hc : ¬ c = sep := fun e => h (by simp [e])
    simp [splitOn, hc, ih (fun hm => h (List.mem_cons_of_mem _ hm))]

theorem splitOn_append (sep : Char) (a b : List Char) (h : sep ∉ a) :
    splitOn sep (a ++ sep :: b) = a :: splitOn sep b := by
  induction a with
  | nil => simp [splitOn]
  | cons c cs ih =>
    have hc : ¬ c = sep := fun e => h (by simp [e])
    simp [splitOn, hc, ih (fun hm => h (List.mem_cons_of_mem _ hm))]

theorem twoDigits_facts :
    ∀ n ∈ List.range 24, parseInt (twoDigits n) = some (n : Int) ∧ ':' ∉ twoDigits n ∧
      (if (n : Int).tmod 12 = 0 then 12 else (n : Int).tmod 12) =
        (((if n % 12 = 0 then 12 else n % 12 : Nat)) : Int) ∧
      (if (n : Int) ≥ 12 then "PM" else "AM") = (if 12 ≤ n then "PM" else "AM") := by
  decide

/-- C16: for an hour `hh` from 0 to 23, written with two digits, and a minutes text `mm`,
`formatTime` of `hh:mm` is the hour `hh mod 12` (12 when that is 0, so between 1 and 12), a
colon, the minutes text unchanged, a space, and PM when `hh` is 12 or more, AM otherwise; so
"00:30" gives "12:30 AM" and "12:00" gives "12:00 PM". -/
theorem formatTime_spec (hh : Nat) (mm : List Char) (h : hh ≤ 23) (hmm : ':' ∉ mm) :
    formatTime (String.mk (twoDigits hh ++ ':' :: mm)) =
        String.mk (numberToString (((if hh % 12 = 0 then 12 else hh % 12 : Nat)) : Int) ++
          ':' :: mm ++ ' ' :: (if 12 ≤ hh then "PM" else "AM").data) ∧
      1 ≤ (if hh % 12 = 0 then 12 else hh % 12) ∧ (if hh % 12 = 0 then 12 else hh % 12) ≤ 12 ∧
      formatTime "00:30" = "12:30 AM" ∧ formatTime "12:00" = "12:00 PM" := by
  obtain ⟨hp, hc, hd, ha⟩ := twoDigits_facts hh (List.mem_range.mpr (by omega))
  refine ⟨?_, ?_, ?_, by decide, by decide⟩
  · unfold formatTime
    simp only [splitOn_append ':' _ mm hc, splitOn_single ':' mm hmm, List.headD_cons, hp, hd, ha]
  · split <;> omega
  · split <;> omega

/-- C16 at "09:05". -/
theorem formatTime_spec_witness :
    formatTime "09:05" = "9:05 AM" ∧ 1 ≤ 9 ∧ 9 ≤ 12 ∧
      formatTime "00:30" = "12:30 AM" ∧ formatTime "12:00" = "12:00 PM" :=
  formatTime_spec 9 "05".data (by decide) (by decide)

end BookingWizard
